import Mathlib

/-!
Verification of the four-week calendar/event-layout generator
(`calendar_with_events.py`).

Shallow embedding conventions:
* A calendar day is its proleptic-Gregorian ordinal, an `Int`
  (Python `date.toordinal()`); `timedelta(days = k)` is `+ k`.
* `date.weekday()` (0 = Monday .. 6 = Sunday) becomes `pyWeekday`.
* Python lists become `List`, the per-day occupancy dict becomes a total
  function `Int → List (Option RawEvent)` (the dict is created with an
  empty list for every date of the window, and is only ever read at dates
  of the window, so a total function defaulting to `[]` is equivalent).
* Python dicts used as insertion-ordered key/value stores
  (`event_dict`, `self.member_colors`) become association lists updated
  by `dictInsert`, which overwrites in place or appends, exactly like a
  Python dict.
* The unbounded `while True:` row search terminates because every row
  index at or beyond the longest current occupancy list is free; it is
  embedded as fuelled recursion with a fuel provably large enough.
-/

namespace CalendarGen

/-- Python `date.weekday()` expressed on ordinals: ordinal 1
(0001-01-01) is a Monday. -/
def pyWeekday (d : Int) : Int := (d - 1) % 7

/-- `[lo, lo+1, ..., hi]` (empty when `hi < lo`): the dates produced by a
Python loop `while current <= hi: append(current); current += 1`. -/
def intRange (lo hi : Int) : List Int :=
  (List.range (hi + 1 - lo).toNat).map (fun (i : Nat) => lo + (i : Int))

/-- `get_week_range`: Monday through Sunday of the week containing
`target_date`. -/
def get_week_range (target_date : Int) : List Int :=
  (List.range 7).map (fun (i : Nat) => (target_date - pyWeekday target_date) + (i : Int))

/-- `get_four_week_range`: previous week, current week and the two
following weeks, together with the anchor date. -/
def get_four_week_range (today : Int) : List (List Int) × Int :=
  let current_week := get_week_range today
  let prev_week := get_week_range (current_week.headD 0 - 7)
  let next_week1 := get_week_range (current_week.headD 0 + 7)
  let next_week2 := get_week_range (current_week.headD 0 + 14)
  ([prev_week, current_week, next_week1, next_week2], today)

theorem mem_intRange {lo hi d : Int} : d ∈ intRange lo hi ↔ lo ≤ d ∧ d ≤ hi := by
  unfold intRange
  simp only [List.mem_map, List.mem_range]
  constructor
  · rintro ⟨i, hi', rfl⟩
    omega
  · rintro ⟨h1, h2⟩
    exact ⟨(d - lo).toNat, by omega, by omega⟩

theorem intRange_length (lo hi : Int) : (intRange lo hi).length = (hi + 1 - lo).toNat := by
  simp [intRange]

theorem intRange_nodup (lo hi : Int) : (intRange lo hi).Nodup := by
  unfold intRange
  exact (List.nodup_range _).map (fun i j h => by omega)

theorem getD_intRange {lo hi : Int} {i : Nat} (h : (i : Int) ≤ hi - lo) :
    (intRange lo hi).getD i 0 = lo + i := by
  unfold intRange
  rw [List.getD_eq_getElem?_getD, List.getElem?_map, List.getElem?_range (by omega)]
  rfl

theorem intRange_eq_cons {lo hi : Int} (h : lo ≤ hi) :
    intRange lo hi = lo :: intRange (lo + 1) hi := by
  unfold intRange
  have h7 : (hi + 1 - lo).toNat = (hi + 1 - (lo + 1)).toNat + 1 := by omega
  rw [h7, List.range_succ_eq_map]
  simp only [List.map_cons, List.map_map]
  congr 1
  · simp
  · exact List.map_congr_left (fun i _ => by simp [Function.comp]; omega)

theorem headD_intRange {lo hi : Int} (h : lo ≤ hi) : (intRange lo hi).headD 0 = lo := by
  rw [intRange_eq_cons h]; rfl

theorem intRange_eq_concat {lo hi : Int} (h : lo ≤ hi) :
    intRange lo hi = intRange lo (hi - 1) ++ [hi] := by
  unfold intRange
  have h7 : (hi + 1 - lo).toNat = (hi - 1 + 1 - lo).toNat + 1 := by omega
  have h8 : lo + ((hi - 1 + 1 - lo).toNat : Int) = hi := by omega
  rw [h7, List.range_succ, List.map_append]
  simp only [List.map_cons, List.map_nil, h8]

theorem getLastD_intRange {lo hi : Int} (h : lo ≤ hi) :
    (intRange lo hi).getLastD 0 = hi := by
  rw [intRange_eq_concat h, List.getLastD_concat]

/-- The week list is the integer range from its Monday. -/
theorem get_week_range_eq (t : Int) :
    get_week_range t = intRange (t - pyWeekday t) (t - pyWeekday t + 6) := by
  unfold get_week_range intRange
  have h7 : (t - pyWeekday t + 6 + 1 - (t - pyWeekday t)).toNat = 7 := by omega
  rw [h7]

theorem pyWeekday_nonneg (d : Int) : 0 ≤ pyWeekday d := by
  unfold pyWeekday; omega

theorem pyWeekday_lt (d : Int) : pyWeekday d < 7 := by
  unfold pyWeekday; omega

/-- Shorthand for the Monday of the anchor's week. -/
def mondayOf (d : Int) : Int := d - pyWeekday d

theorem pyWeekday_mondayOf_add (d k : Int) : pyWeekday (mondayOf d + 7 * k) = 0 := by
  unfold mondayOf pyWeekday; omega

/-- A week computed from a Monday starts at that Monday. -/
theorem get_week_range_of_monday {t : Int} (h : pyWeekday t = 0) :
    get_week_range t = intRange t (t + 6) := by
  rw [get_week_range_eq t, h]
  norm_num

/-- The four weeks, written as explicit date ranges. -/
theorem get_four_week_range_eq (a : Int) :
    (get_four_week_range a).1 =
      [intRange (mondayOf a - 7) (mondayOf a - 1),
       intRange (mondayOf a) (mondayOf a + 6),
       intRange (mondayOf a + 7) (mondayOf a + 13),
       intRange (mondayOf a + 14) (mondayOf a + 20)] := by
  have hcw : get_week_range a = intRange (mondayOf a) (mondayOf a + 6) :=
    get_week_range_eq a
  have hhead : (get_week_range a).headD 0 = mondayOf a := by
    rw [hcw]; exact headD_intRange (by omega)
  have hp : pyWeekday (mondayOf a - 7) = 0 := by unfold mondayOf pyWeekday; omega
  have h1 : pyWeekday (mondayOf a + 7) = 0 := by unfold mondayOf pyWeekday; omega
  have h2 : pyWeekday (mondayOf a + 14) = 0 := by unfold mondayOf pyWeekday; omega
  simp only [get_four_week_range]
  rw [hhead, hcw, get_week_range_of_monday hp, get_week_range_of_monday h1,
    get_week_range_of_monday h2]
  norm_num
  exact ⟨by congr 1; omega, by congr 1; omega, by congr 1; omega⟩

/-- Membership in the 28 dates of the window. -/
theorem mem_window_join {a d : Int} :
    d ∈ ((get_four_week_range a).1).flatten ↔
      mondayOf a - 7 ≤ d ∧ d ≤ mondayOf a + 20 := by
  rw [get_four_week_range_eq]
  simp only [List.flatten_cons, List.flatten_nil, List.append_nil, List.mem_append,
    mem_intRange]
  omega

/-- The first visible date (`all_dates[0]`). -/
theorem window_join_headD (a : Int) :
    (((get_four_week_range a).1).flatten).headD 0 = mondayOf a - 7 := by
  rw [get_four_week_range_eq]
  simp only [List.flatten_cons, List.flatten_nil, List.append_nil]
  rw [intRange_eq_cons (show mondayOf a - 7 ≤ mondayOf a - 1 by omega)]
  rfl

/-- The last visible date (`all_dates[-1]`). -/
theorem window_join_getLastD (a : Int) :
    (((get_four_week_range a).1).flatten).getLastD 0 = mondayOf a + 20 := by
  rw [get_four_week_range_eq]
  simp only [List.flatten_cons, List.flatten_nil, List.append_nil]
  rw [intRange_eq_concat (show mondayOf a + 14 ≤ mondayOf a + 20 by omega)]
  simp only [← List.append_assoc]
  rw [List.getLastD_concat]

/-- C4: the four-week window has 4 weeks of 7 consecutive days, each week
starting on a Monday, weeks contiguous, and the anchor inside the second
week. -/
theorem window_correctness (a : Int) :
    (get_four_week_range a).1.length = 4 ∧
    (∀ w ∈ (get_four_week_range a).1, w.length = 7) ∧
    (∀ w ∈ (get_four_week_range a).1, pyWeekday (w.headD 0) = 0) ∧
    (∀ w ∈ (get_four_week_range a).1, ∀ i : Nat, i + 1 < w.length →
      w.getD (i + 1) 0 = w.getD i 0 + 1) ∧
    (∀ j : Nat, j + 1 < (get_four_week_range a).1.length →
      ((get_four_week_range a).1.getD (j + 1) []).headD 0 =
        ((get_four_week_range a).1.getD j []).headD 0 + 7) ∧
    ((get_four_week_range a).1.getD 1 []).headD 0 ≤ a ∧
    a ≤ ((get_four_week_range a).1.getD 1 []).getD 6 0 := by
  have hnn : 0 ≤ pyWeekday a := pyWeekday_nonneg a
  have hlt : pyWeekday a < 7 := pyWeekday_lt a
  have hM : mondayOf a = a - pyWeekday a := rfl
  rw [get_four_week_range_eq]
  refine ⟨rfl, ?_, ?_, ?_, ?_, ?_, ?_⟩
  · intro w hw
    simp only [List.mem_cons, List.not_mem_nil, or_false] at hw
    rcases hw with rfl | rfl | rfl | rfl <;> (rw [intRange_length]; omega)
  · intro w hw
    simp only [List.mem_cons, List.not_mem_nil, or_false] at hw
    rcases hw with rfl | rfl | rfl | rfl <;>
      (rw [headD_intRange (by omega)]; unfold mondayOf pyWeekday; omega)
  · intro w hw
    simp only [List.mem_cons, List.not_mem_nil, or_false] at hw
    rcases hw with rfl | rfl | rfl | rfl <;>
      (intro i hi
       rw [intRange_length] at hi
       rw [getD_intRange (by omega), getD_intRange (by omega)]
       push_cast
       ring)
  · intro j hj
    simp only [List.length_cons, List.length_nil] at hj
    rcases j with _ | _ | _ | j
    · simp only [List.getD_cons_succ, List.getD_cons_zero]
      rw [headD_intRange (by omega), headD_intRange (by omega)]
      omega
    · simp only [List.getD_cons_succ, List.getD_cons_zero]
      rw [headD_intRange (by omega), headD_intRange (by omega)]
    · simp only [List.getD_cons_succ, List.getD_cons_zero]
      rw [headD_intRange (by omega), headD_intRange (by omega)]
      omega
    · omega
  · simp only [List.getD_cons_succ, List.getD_cons_zero]
    rw [headD_intRange (by omega)]
    omega
  · simp only [List.getD_cons_succ, List.getD_cons_zero]
    rw [getD_intRange (by omega)]
    omega

/-- Witness for C4 at the anchor 2024-03-15 (ordinal 738960): the anchor
lies in the second week of its window. -/
theorem window_correctness_witness :
    ((get_four_week_range 738960).1.getD 1 []).headD 0 ≤ 738960 ∧
    738960 ≤ ((get_four_week_range 738960).1.getD 1 []).getD 6 0 :=
  ⟨(window_correctness 738960).2.2.2.2.2.1, (window_correctness 738960).2.2.2.2.2.2⟩

/-! ## Event records and CSV ingestion -/

/-- One parsed event record (the dict built in `load_events_from_csv`). -/
structure RawEvent where
  start_date : Int
  end_date : Int
  member : String
  description : String
  deriving DecidableEq, Repr

/-- The default used when reading from an event list out of range. -/
def defaultEvent : RawEvent := ⟨0, 0, "", ""⟩

/-- The deduplication/rendering identity `(member, start_date, end_date)`. -/
def eventKey (ev : RawEvent) : String × Int × Int :=
  (ev.member, ev.start_date, ev.end_date)

/-- Gregorian leap-year rule (Python `calendar`/`datetime`). -/
def isLeapYear (y : Nat) : Bool :=
  y % 4 = 0 && (y % 100 ≠ 0 || y % 400 = 0)

/-- Length of a month, as validated by `datetime.date`. -/
def daysInMonth (y m : Nat) : Nat :=
  if m = 2 && isLeapYear y then 29
  else [31, 28, 31, 30, 31, 30, 31, 31, 30, 31, 30, 31].getD (m - 1) 0

/-- Days in the year before month `m` (non-leap). -/
def daysBeforeMonth (m : Nat) : Nat :=
  [0, 31, 59, 90, 120, 151, 181, 212, 243, 273, 304, 334].getD (m - 1) 0

/-- `date(y, m, d).toordinal()`: proleptic-Gregorian ordinal. -/
def toordinal (y m d : Nat) : Int :=
  ((365 * (y - 1) + (y - 1) / 4 - (y - 1) / 100 + (y - 1) / 400
    + daysBeforeMonth m + (if 2 < m && isLeapYear y then 1 else 0) + d : Nat) : Int)

/-- `s.split('/')` on the character list of a string (structural, so the
kernel can evaluate it): `"a/b" ↦ ["a", "b"]`, `"" ↦ [""]`. -/
def splitOnSlash : List Char → List (List Char)
  | [] => [[]]
  | c :: cs =>
    if c = '/' then [] :: splitOnSlash cs
    else
      match splitOnSlash cs with
      | [] => [[c]]
      | p :: ps => (c :: p) :: ps

/-- Decimal value of a digit string. -/
def digitsToNat (cs : List Char) : Nat :=
  cs.foldl (fun n c => 10 * n + (c.toNat - 48)) 0

/-- `datetime.strptime(s, "%Y/%m/%d").date().toordinal()`, as an option:
`%Y` is exactly four digits, `%m` and `%d` one or two digits, values
validated by the regex and the `date` constructor; anything else raises
`ValueError`, modelled as `none`. -/
def parseDate (s : String) : Option Int :=
  match splitOnSlash s.data with
  | [ys, ms, ds] =>
    if ys.length = 4 && ys.all Char.isDigit
        && (ms.length = 1 || ms.length = 2) && ms.all Char.isDigit
        && (ds.length = 1 || ds.length = 2) && ds.all Char.isDigit then
      let y := digitsToNat ys
      let mo := digitsToNat ms
      let da := digitsToNat ds
      if 1 ≤ y ∧ 1 ≤ mo ∧ mo ≤ 12 ∧ 1 ≤ da ∧ da ≤ daysInMonth y mo then
        some (toordinal y mo da)
      else none
    else none
  | _ => none

/-- Errors that can escape `load_events_from_csv`: a `ValueError` from
`strptime`, or `StopIteration` from `next(reader)` on an empty file.
(`FileNotFoundError` is caught inside and does not escape.) -/
inductive LoadErr where
  | valueError : LoadErr
  | stopIteration : LoadErr
  deriving DecidableEq, Repr

/-- The record loop of `load_events_from_csv`: rows with at least four
fields are parsed and appended to `raw_events`; shorter rows are skipped;
a `strptime` failure aborts the whole loop (nothing catches it). -/
def parseRows : List (List String) → Except LoadErr (List RawEvent)
  | [] => .ok []
  | row :: rest =>
    if 4 ≤ row.length then
      match parseDate (row.getD 0 "") with
      | none => .error .valueError
      | some sd =>
        match parseDate (row.getD 1 "") with
        | none => .error .valueError
        | some ed =>
          match parseRows rest with
          | .error e => .error e
          | .ok evs => .ok (⟨sd, ed, row.getD 2 "", row.getD 3 ""⟩ :: evs)
    else parseRows rest

/-- A Python dict update `d[k] = v` on an insertion-ordered association
list: overwrite in place if the key exists, else append. -/
def dictInsert {α β : Type} [DecidableEq α] (l : List (α × β)) (k : α) (v : β) :
    List (α × β) :=
  if l.any (fun p => p.1 = k) then l.map (fun p => if p.1 = k then (k, v) else p)
  else l ++ [(k, v)]

/-- `remove_duplicate_events`: keep, per key `(member, start_date,
end_date)`, the last record, in first-occurrence key order (Python dict
semantics), then take `list(event_dict.values())`. -/
def remove_duplicate_events (events : List RawEvent) : List RawEvent :=
  (events.foldl (fun d ev => dictInsert d (eventKey ev) ev) []).map Prod.snd

/-- The fixed 20-color palette of `assign_member_colors`. -/
def colors : List String :=
  ["#ffb3ba", "#bae1ff", "#baffc9", "#ffffba", "#ffdfba",
   "#e0bbe4", "#d4d4aa", "#ffc9c9", "#c9e4ff", "#d4ffd4",
   "#ffffe0", "#ffe4e1", "#f0f8ff", "#f0fff0", "#ffefd5",
   "#e6e6fa", "#f5deb3", "#ffe4b5", "#dda0dd", "#98fb98"]

/-- `assign_member_colors`: write `colors[i % len(colors)]` into the
(persistent) `member_colors` dict for each member, by index in the given
member list. -/
def assign_member_colors (dict : List (String × String)) (members : List String) :
    List (String × String) :=
  (members.enum).foldl
    (fun d p => dictInsert d p.2 (colors.getD (p.1 % colors.length) "")) dict

/-- `sorted(list(members))` where `members` is the set of owners seen
while parsing. -/
def sortedMembers (raws : List RawEvent) : List String :=
  List.insertionSort (fun a b => a ≤ b) ((raws.map RawEvent.member).dedup)

/-- The generator's instance state (`CalendarSVGGenerator.__init__`). -/
structure GenState where
  cell_width : Int
  cell_height : Int
  header_height : Int
  margin : Int
  event_height : Int
  member_colors : List (String × String)
  events : List RawEvent
  deriving DecidableEq, Repr

/-- A freshly constructed generator. -/
def initState : GenState :=
  { cell_width := 120, cell_height := 140, header_height := 40, margin := 10,
    event_height := 18, member_colors := [], events := [] }

/-- `load_events_from_csv`. `none` models a missing file
(`FileNotFoundError` is caught: warning printed, state untouched); an
empty file makes `next(reader)` raise `StopIteration`; otherwise the
first row (header) is dropped and the record loop runs.  On success
`self.events` is replaced by the deduplicated records and colors are
assigned to the sorted member set. -/
def load_events_from_csv (st : GenState) (csv : Option (List (List String))) :
    Except LoadErr GenState :=
  match csv with
  | none => .ok st
  | some [] => .error .stopIteration
  | some (_header :: data) =>
    match parseRows data with
    | .error e => .error e
    | .ok raws =>
      .ok { st with
              events := remove_duplicate_events raws,
              member_colors := assign_member_colors st.member_colors (sortedMembers raws) }

/-! ## Interval packing engine (`calculate_event_layout`) -/

/-- The per-day occupancy structure `date_event_positions`: every window
date maps to its ordered row-slot list (`None` = free slot).  Window
dates all start at `[]`; the generator never reads dates outside the
window, so a total function defaulting to `[]` is an exact model. -/
abbrev Occ : Type := Int → List (Option RawEvent)

/-- Row assignments: the `event['layout_position'] = position` writes, in
processing order. -/
abbrev Asg : Type := List (RawEvent × Nat)

/-- `get_events_for_date_range`: events whose range intersects
`[start_date, end_date]`. -/
def get_events_for_date_range (events : List RawEvent) (start_date end_date : Int) :
    List RawEvent :=
  events.filter (fun ev => !(decide (ev.end_date < start_date) || decide (ev.start_date > end_date)))

/-- `event_dates`: the event's range clipped to the window. -/
def clipDates (start_date end_date : Int) (ev : RawEvent) : List Int :=
  intRange (max ev.start_date start_date) (min ev.end_date end_date)

/-- The `can_place` check for one candidate row: for every clipped date,
the row is past the end of that day's list or the slot there is `None`. -/
def canPlace (occ : Occ) (dates : List Int) (position : Nat) : Bool :=
  dates.all fun date =>
    !(decide (position < (occ date).length) && ((occ date).getD position none).isSome)

/-- Longest occupancy list over the event's dates; every row index at or
beyond it satisfies `canPlace`, so it bounds the `while True:` search. -/
def maxOccLen (occ : Occ) (dates : List Int) : Nat :=
  dates.foldl (fun acc date => max acc (occ date).length) 0

/-- The `while True: ... position += 1` search, with explicit fuel. -/
def findPosAux (occ : Occ) (dates : List Int) : Nat → Nat → Nat
  | 0, position => position
  | fuel + 1, position =>
    if canPlace occ dates position then position
    else findPosAux occ dates fuel (position + 1)

/-- First row index accepted by `canPlace` (the fuel provably suffices:
see `canPlace_maxOccLen`). -/
def findPos (occ : Occ) (dates : List Int) : Nat :=
  findPosAux occ dates (maxOccLen occ dates + 1) 0

/-- Commit on one day's list: `while len(l) <= position: l.append(None)`
then `l[position] = event`. -/
def placeOne (l : List (Option RawEvent)) (position : Nat) (ev : RawEvent) :
    List (Option RawEvent) :=
  (l ++ List.replicate (position + 1 - l.length) none).set position (some ev)

/-- Commit the chosen row on every clipped date of the event. -/
def placeEvent (occ : Occ) (dates : List Int) (position : Nat) (ev : RawEvent) : Occ :=
  dates.foldl (fun o date => Function.update o date (placeOne (o date) position ev)) occ

/-- The body of the `for event in relevant_events:` loop. -/
def packStep (start_date end_date : Int) (st : Occ × Asg) (ev : RawEvent) : Occ × Asg :=
  let event_dates := clipDates start_date end_date ev
  let position := findPos st.1 event_dates
  (placeEvent st.1 event_dates position ev, st.2 ++ [(ev, position)])

/-- `calculate_event_layout`: pack every relevant event, first-fit,
in discovery order. -/
def calculate_event_layout (events : List RawEvent) (weeks : List (List Int)) :
    Occ × Asg :=
  let all_dates := weeks.flatten
  let start_date := all_dates.headD 0
  let end_date := all_dates.getLastD 0
  (get_events_for_date_range events start_date end_date).foldl
    (packStep start_date end_date) (fun _ => [], [])

/-- `max([len(positions) for positions in date_event_positions.values()] + [0])`. -/
def maxEventsOf (weeks : List (List Int)) (occ : Occ) : Nat :=
  (weeks.flatten).foldl (fun acc date => max acc (occ date).length) 0

/-- The state effect of `generate_svg`: load the CSV (its errors
propagate), lay out the events for the four-week window of `today`, and
if any day has occupied rows, grow `self.cell_height`.  The emitted SVG
text does not feed back into the state. -/
def generate_svg (st : GenState) (today : Int) (csv : Option (List (List String))) :
    Except LoadErr GenState :=
  match load_events_from_csv st csv with
  | .error e => .error e
  | .ok s1 =>
    let weeks := (get_four_week_range today).1
    let layout := calculate_event_layout s1.events weeks
    let max_events := maxEventsOf weeks layout.1
    if 0 < max_events then
      .ok { s1 with cell_height := max 120 (60 + (max_events : Int) * (s1.event_height + 2)) }
    else .ok s1

/-! ## C2 / C3: ingestion error handling -/

/-- C2 counterexample: a record sequence whose second record has a
malformed start date (`2024-03-01`, wrong separator).  The load does not
skip that record and continue: `strptime`'s `ValueError` is uncaught, the
whole load aborts and the error propagates to the caller, and the valid
record after it is never ingested. -/
theorem bad_date_aborts_load :
    load_events_from_csv initState
      (some [[], ["2024-03-01", "2024/03/02", "A", "x"],
             ["2024/03/03", "2024/03/04", "B", "y"]]) =
      .error .valueError := by
  rfl

/-- Skipping lemma for the record loop: a row with fewer than four fields
contributes nothing and parsing continues with the remaining rows. -/
theorem parseRows_skip_short {r : List String} (hr : r.length < 4)
    (xs ys : List (List String)) :
    parseRows (xs ++ r :: ys) = parseRows (xs ++ ys) := by
  induction xs with
  | nil =>
    simp only [List.nil_append, parseRows]
    rw [if_neg (by omega)]
  | cons x xs ih =>
    simp only [List.cons_append, parseRows, List.append_eq]
    rw [ih]

/-- C2 amended: only the too-few-fields half of the claim holds.  A row
with fewer than four fields is skipped and ingestion continues: deleting
it from the record sequence does not change the result of the load. -/
theorem short_row_skipped (st : GenState) (header r : List String)
    (xs ys : List (List String)) (hr : r.length < 4) :
    load_events_from_csv st (some (header :: (xs ++ r :: ys))) =
      load_events_from_csv st (some (header :: (xs ++ ys))) := by
  simp only [load_events_from_csv, parseRows_skip_short hr]

/-- Witness for `short_row_skipped`: dropping the one-field row `["oops"]`
leaves the load unchanged. -/
theorem short_row_skipped_witness :
    load_events_from_csv initState
        (some ([] :: ([["2024/03/03", "2024/03/04", "B", "y"]] ++
          ["oops"] :: [["2024/03/05", "2024/03/06", "C", "z"]]))) =
      load_events_from_csv initState
        (some ([] :: ([["2024/03/03", "2024/03/04", "B", "y"]] ++
          [["2024/03/05", "2024/03/06", "C", "z"]]))) :=
  short_row_skipped initState [] ["oops"] _ _ (by decide)

/-- C3 counterexample: the record `2024/03/05 .. 2024/03/01` has
`start_date > end_date`, yet ingestion accepts it and the built event
sequence contains an Event with `start_date > end_date` (ordinals
738950 > 738946). -/
theorem reversed_range_ingested :
    load_events_from_csv initState
        (some [[], ["2024/03/05", "2024/03/01", "A", "x"]]) =
      .ok { initState with
              events := [⟨738950, 738946, "A", "x"⟩],
              member_colors := [("A", "#ffb3ba")] } ∧
    (738946 : Int) < 738950 := by
  exact ⟨by rfl, by decide⟩

/-- C3 amended: ingestion performs no date-range validation at all.  Any
record with at least four fields whose two date fields parse is ingested
as-is — whatever the relation between its start and end dates — and
appears in the built event sequence. -/
theorem no_range_check (st : GenState) (header row : List String) (sd ed : Int)
    (hlen : 4 ≤ row.length)
    (hsd : parseDate (row.getD 0 "") = some sd)
    (hed : parseDate (row.getD 1 "") = some ed) :
    load_events_from_csv st (some [header, row]) =
      .ok { st with
              events := [⟨sd, ed, row.getD 2 "", row.getD 3 ""⟩],
              member_colors :=
                assign_member_colors st.member_colors [row.getD 2 ""] } := by
  have hrows : parseRows [row] = .ok [⟨sd, ed, row.getD 2 "", row.getD 3 ""⟩] := by
    simp only [parseRows, if_pos hlen, hsd, hed]
  simp only [load_events_from_csv, hrows]
  rfl

/-- Witness for `no_range_check` at a reversed-range record. -/
theorem no_range_check_witness :
    load_events_from_csv initState
        (some [[], ["2024/03/05", "2024/03/01", "A", "x"]]) =
      .ok { initState with
              events := [⟨738950, 738946, "A", "x"⟩],
              member_colors :=
                assign_member_colors initState.member_colors ["A"] } :=
  no_range_check initState [] ["2024/03/05", "2024/03/01", "A", "x"]
    738950 738946 (by decide) (by rfl) (by rfl)

/-! ## C6 / C10: deduplication -/

/-- The keys of a record sequence in order of first occurrence — the
iteration order of a Python dict filled by the dedup loop. -/
def firstOccurrenceKeys (es : List RawEvent) : List (String × Int × Int) :=
  es.foldl (fun acc ev => if eventKey ev ∈ acc then acc else acc ++ [eventKey ev]) []

/-- The association list built by the dedup loop. -/
def dedupDict (es : List RawEvent) : List ((String × Int × Int) × RawEvent) :=
  es.foldl (fun d ev => dictInsert d (eventKey ev) ev) []

theorem remove_duplicate_events_eq (es : List RawEvent) :
    remove_duplicate_events es = (dedupDict es).map Prod.snd := rfl

theorem firstOccurrenceKeys_append (es : List RawEvent) (ev : RawEvent) :
    firstOccurrenceKeys (es ++ [ev]) =
      if eventKey ev ∈ firstOccurrenceKeys es then firstOccurrenceKeys es
      else firstOccurrenceKeys es ++ [eventKey ev] := by
  unfold firstOccurrenceKeys
  rw [List.foldl_append]
  rfl

theorem dedupDict_append (es : List RawEvent) (ev : RawEvent) :
    dedupDict (es ++ [ev]) = dictInsert (dedupDict es) (eventKey ev) ev := by
  unfold dedupDict
  rw [List.foldl_append]
  rfl

theorem mem_firstOccurrenceKeys {es : List RawEvent} {k : String × Int × Int} :
    k ∈ firstOccurrenceKeys es ↔ ∃ ev ∈ es, eventKey ev = k := by
  induction es using List.reverseRecOn generalizing k with
  | nil => simp [firstOccurrenceKeys]
  | append_singleton l a ih =>
    rw [firstOccurrenceKeys_append]
    by_cases h : eventKey a ∈ firstOccurrenceKeys l
    · rw [if_pos h, ih]
      rcases ih.1 h with ⟨ev', hev', hk'⟩
      simp only [List.mem_append, List.mem_singleton]
      constructor
      · rintro ⟨ev, hev, rfl⟩
        exact ⟨ev, Or.inl hev, rfl⟩
      · rintro ⟨ev, hev | rfl, hk⟩
        · exact ⟨ev, hev, hk⟩
        · exact ⟨ev', hev', by rw [hk', ← hk]⟩
    · rw [if_neg h]
      simp only [List.mem_append, List.mem_singleton, ih]
      constructor
      · rintro (⟨ev, hev, rfl⟩ | rfl)
        · exact ⟨ev, Or.inl hev, rfl⟩
        · exact ⟨a, Or.inr rfl, rfl⟩
      · rintro ⟨ev, hev | rfl, hk⟩
        · exact Or.inl ⟨ev, hev, hk⟩
        · exact Or.inr hk.symm

theorem firstOccurrenceKeys_nodup (es : List RawEvent) :
    (firstOccurrenceKeys es).Nodup := by
  induction es using List.reverseRecOn with
  | nil => simp [firstOccurrenceKeys]
  | append_singleton l a ih =>
    rw [firstOccurrenceKeys_append]
    by_cases h : eventKey a ∈ firstOccurrenceKeys l
    · rw [if_pos h]; exact ih
    · rw [if_neg h]
      rw [← List.concat_eq_append]
      exact ih.concat h

theorem dictInsert_of_mem {α β : Type} [DecidableEq α] {l : List (α × β)} {k : α}
    (h : k ∈ l.map Prod.fst) (v : β) :
    dictInsert l k v = l.map (fun p => if p.1 = k then (k, v) else p) := by
  unfold dictInsert
  rw [if_pos]
  rw [List.any_eq_true]
  rcases List.mem_map.1 h with ⟨p, hp, rfl⟩
  exact ⟨p, hp, by simp⟩

theorem dictInsert_of_not_mem {α β : Type} [DecidableEq α] {l : List (α × β)} {k : α}
    (h : k ∉ l.map Prod.fst) (v : β) :
    dictInsert l k v = l ++ [(k, v)] := by
  unfold dictInsert
  rw [if_neg]
  rw [List.any_eq_true]
  rintro ⟨p, hp, hk⟩
  exact h (List.mem_map.2 ⟨p, hp, by simpa using hk⟩)

/-- In a list with distinct keys, the entries with a present key form a
one-element list. -/
theorem filter_key_singleton {α β : Type} [DecidableEq α] {l : List (α × β)}
    (hnd : (l.map Prod.fst).Nodup) {k : α} (hk : k ∈ l.map Prod.fst) :
    ∃ v, l.filter (fun p => decide (p.1 = k)) = [(k, v)] := by
  induction l with
  | nil => simp at hk
  | cons q l ih =>
    simp only [List.map_cons, List.nodup_cons] at hnd
    by_cases hq : q.1 = k
    · refine ⟨q.2, ?_⟩
      have hfil : l.filter (fun p => decide (p.1 = k)) = [] := by
        rw [List.filter_eq_nil_iff]
        intro p hp
        simp only [decide_eq_true_eq]
        intro hpk
        exact hnd.1 (hq ▸ hpk ▸ List.mem_map.2 ⟨p, hp, rfl⟩)
      rw [List.filter_cons_of_pos (by simpa using hq), hfil]
      rw [show q = (k, q.2) from Prod.ext hq rfl]
    · have hk' : k ∈ l.map Prod.fst := by
        rcases List.mem_cons.1 hk with h | h
        · exact absurd h.symm hq
        · exact h
      rcases ih hnd.2 hk' with ⟨v, hv⟩
      exact ⟨v, by rw [List.filter_cons_of_neg (by simpa using hq), hv]⟩

/-- Main invariant of the dedup loop: keys in first-occurrence order,
entry keys consistent, and per-key content equal to the last matching
record. -/
theorem dedupDict_spec (es : List RawEvent) :
    (dedupDict es).map Prod.fst = firstOccurrenceKeys es ∧
    (∀ p ∈ dedupDict es, eventKey p.2 = p.1) ∧
    ∀ k, ((dedupDict es).filter (fun p => decide (p.1 = k))).map Prod.snd =
      ((es.filter (fun ev => decide (eventKey ev = k))).getLast?).toList := by
  induction es using List.reverseRecOn with
  | nil => refine ⟨rfl, by simp [dedupDict], fun k => by simp [dedupDict, firstOccurrenceKeys]⟩
  | append_singleton l a ih =>
    obtain ⟨ihkeys, ihent, ihfil⟩ := ih
    rw [dedupDict_append, firstOccurrenceKeys_append]
    by_cases h : eventKey a ∈ firstOccurrenceKeys l
    · -- overwrite in place
      have hmem : eventKey a ∈ (dedupDict l).map Prod.fst := by rw [ihkeys]; exact h
      rw [dictInsert_of_mem hmem, if_pos h]
      have hfst : ∀ p : (String × Int × Int) × RawEvent,
          (if p.1 = eventKey a then (eventKey a, a) else p).1 = p.1 := by
        intro p
        by_cases hp : p.1 = eventKey a <;> simp [hp]
      refine ⟨?_, ?_, ?_⟩
      · rw [List.map_map, ← ihkeys]
        exact List.map_congr_left (fun p _ => hfst p)
      · intro p hp
        rcases List.mem_map.1 hp with ⟨q, hq, rfl⟩
        by_cases hq' : q.1 = eventKey a
        · simp [hq']
        · simpa [hq'] using ihent q hq
      · intro k
        rw [List.filter_map]
        have hfc : ((dedupDict l).filter
              ((fun p => decide (p.1 = k)) ∘ fun p => if p.1 = eventKey a then (eventKey a, a) else p))
            = (dedupDict l).filter (fun p => decide (p.1 = k)) := by
          apply List.filter_congr
          intro p _
          simp only [Function.comp_apply, hfst p]
        rw [hfc]
        by_cases hk : k = eventKey a
        · subst hk
          have hnd : ((dedupDict l).map Prod.fst).Nodup := by
            rw [ihkeys]; exact firstOccurrenceKeys_nodup l
          rcases filter_key_singleton hnd hmem with ⟨v, hv⟩
          rw [hv, List.filter_append]
          simp [List.getLast?_concat]
        · have hid : ∀ p ∈ (dedupDict l).filter (fun p => decide (p.1 = k)),
              (if p.1 = eventKey a then (eventKey a, a) else p) = p := by
            intro p hp
            have := List.of_mem_filter hp
            simp only [decide_eq_true_eq] at this
            rw [if_neg (by rw [this]; exact hk)]
          have hmapid : ((dedupDict l).filter (fun p => decide (p.1 = k))).map
                (fun p => if p.1 = eventKey a then (eventKey a, a) else p)
              = (dedupDict l).filter (fun p => decide (p.1 = k)) := by
            conv_rhs => rw [← List.map_id ((dedupDict l).filter (fun p => decide (p.1 = k)))]
            exact List.map_congr_left (fun p hp => by rw [hid p hp]; rfl)
          rw [hmapid, ihfil k, List.filter_append,
            List.filter_cons_of_neg (by simpa using fun h' => hk h'.symm), List.filter_nil,
            List.append_nil]
    · -- fresh key: append
      have hmem : eventKey a ∉ (dedupDict l).map Prod.fst := by rw [ihkeys]; exact h
      rw [dictInsert_of_not_mem hmem, if_neg h]
      refine ⟨?_, ?_, ?_⟩
      · rw [List.map_append, ihkeys]
        rfl
      · intro p hp
        rcases List.mem_append.1 hp with hp | hp
        · exact ihent p hp
        · rcases List.mem_singleton.1 hp with rfl
          rfl
      · intro k
        rw [List.filter_append]
        by_cases hk : k = eventKey a
        · subst hk
          have hfil : (dedupDict l).filter (fun p => decide (p.1 = eventKey a)) = [] := by
            rw [List.filter_eq_nil_iff]
            intro p hp
            simp only [decide_eq_true_eq]
            intro hpk
            exact hmem (hpk ▸ List.mem_map.2 ⟨p, hp, rfl⟩)
          have hfil' : l.filter (fun ev => decide (eventKey ev = eventKey a)) = [] := by
            rw [List.filter_eq_nil_iff]
            intro ev hev
            simp only [decide_eq_true_eq]
            intro hevk
            exact h (mem_firstOccurrenceKeys.2 ⟨ev, hev, hevk⟩)
          rw [hfil, List.filter_append, hfil']
          simp [List.getLast?_concat]
        · rw [List.filter_cons_of_neg (by simpa using fun h' => hk h'.symm), List.filter_nil,
            List.append_nil, ihfil k, List.filter_append,
            List.filter_cons_of_neg (by simpa using fun h' => hk h'.symm), List.filter_nil,
            List.append_nil]

/-- C6: deduplication groups by `(owner, start_date, end_date)` and keeps,
for each key, exactly the record appearing last in the input sequence
(stated for every key: the deduplicated sequence filtered to the key is
exactly the last input record with that key, if any). -/
theorem dedup_last_wins (es : List RawEvent) (k : String × Int × Int) :
    (remove_duplicate_events es).filter (fun ev => decide (eventKey ev = k)) =
      ((es.filter (fun ev => decide (eventKey ev = k))).getLast?).toList := by
  obtain ⟨hkeys, hent, hfil⟩ := dedupDict_spec es
  rw [remove_duplicate_events_eq, List.filter_map]
  rw [List.filter_congr (fun p hp => ?_), hfil k]
  simp only [Function.comp_apply, hent p hp]

/-- C10 (implicit): the deduplicated sequence lists one event per key in
order of the key's first occurrence in the input, while each listed event
carries the fields of the last record with its key. -/
theorem dedup_first_occurrence_order (es : List RawEvent) :
    (remove_duplicate_events es).map eventKey = firstOccurrenceKeys es ∧
    ∀ k, (remove_duplicate_events es).filter (fun ev => decide (eventKey ev = k)) =
      ((es.filter (fun ev => decide (eventKey ev = k))).getLast?).toList := by
  obtain ⟨hkeys, hent, _⟩ := dedupDict_spec es
  refine ⟨?_, dedup_last_wins es⟩
  rw [remove_duplicate_events_eq, List.map_map, ← hkeys]
  exact List.map_congr_left (fun p hp => hent p hp)

/-! ## C5: color determinism -/

/-- Does a row make the record loop raise `ValueError`? (at least four
fields, and one of the two dates malformed). -/
def rowBad (row : List String) : Bool :=
  decide (4 ≤ row.length) &&
    ((parseDate (row.getD 0 "")).isNone || (parseDate (row.getD 1 "")).isNone)

/-- Successful parse of one row (`none` when the row is skipped for
having fewer than four fields). -/
def rowParse (row : List String) : Option RawEvent :=
  if 4 ≤ row.length then
    match parseDate (row.getD 0 ""), parseDate (row.getD 1 "") with
    | some sd, some ed => some ⟨sd, ed, row.getD 2 "", row.getD 3 ""⟩
    | _, _ => none
  else none

theorem parseRows_ok_of_no_bad {l : List (List String)}
    (h : ∀ r ∈ l, rowBad r = false) :
    parseRows l = .ok (l.filterMap rowParse) := by
  induction l with
  | nil => rfl
  | cons row rest ih =>
    have hrow := h row (List.mem_cons_self row rest)
    have hrest := ih (fun r hr => h r (List.mem_cons_of_mem row hr))
    simp only [parseRows, List.filterMap_cons]
    by_cases hlen : 4 ≤ row.length
    · rw [if_pos hlen]
      unfold rowBad at hrow
      rw [Bool.and_eq_false_iff] at hrow
      rcases hrow with hrow | hrow
      · simp [hlen] at hrow
      · rw [Bool.or_eq_false_iff] at hrow
        obtain ⟨h0, h1⟩ := hrow
        rcases hsd : parseDate (row.getD 0 "") with _ | sd
        · rw [hsd] at h0; simp at h0
        · rcases hed : parseDate (row.getD 1 "") with _ | ed
          · rw [hed] at h1; simp at h1
          · have hrow' : rowParse row = some ⟨sd, ed, row.getD 2 "", row.getD 3 ""⟩ := by
              unfold rowParse
              rw [if_pos hlen, hsd, hed]
            simp only [hsd, hed, hrest, hrow']
    · rw [if_neg hlen, hrest]
      simp [rowParse, hlen]

theorem parseRows_error_of_bad {l : List (List String)}
    (h : ∃ r ∈ l, rowBad r = true) :
    parseRows l = .error .valueError := by
  induction l with
  | nil => simp at h
  | cons row rest ih =>
    by_cases hrow : rowBad row = true
    · unfold rowBad at hrow
      rw [Bool.and_eq_true] at hrow
      obtain ⟨hlen, hdates⟩ := hrow
      rw [decide_eq_true_eq] at hlen
      simp only [parseRows, if_pos hlen]
      rcases hsd : parseDate (row.getD 0 "") with _ | sd
      · rfl
      · rcases hed : parseDate (row.getD 1 "") with _ | ed
        · rfl
        · rw [hsd, hed] at hdates
          simp at hdates
    · have hrest : ∃ r ∈ rest, rowBad r = true := by
        rcases h with ⟨r, hr, hbad⟩
        rcases List.mem_cons.1 hr with rfl | hr
        · exact absurd hbad hrow
        · exact ⟨r, hr, hbad⟩
      simp only [parseRows]
      by_cases hlen : 4 ≤ row.length
      · rw [if_pos hlen]
        rcases hsd : parseDate (row.getD 0 "") with _ | sd
        · rfl
        · rcases hed : parseDate (row.getD 1 "") with _ | ed
          · rfl
          · rw [ih hrest]
      · rw [if_neg hlen]
        exact ih hrest

/-- The owner-to-color mapping a fresh generator holds after loading the
given data records (with a header prepended); a failed load leaves the
fresh, empty mapping. -/
def color_map_of (data : List (List String)) : List (String × String) :=
  match load_events_from_csv initState (some ([] :: data)) with
  | .ok s => s.member_colors
  | .error _ => initState.member_colors

/-- The color-assignment fold from an accumulator whose keys avoid the
member list appends one palette entry per member, in order. -/
theorem assign_fold_fresh (ms : List String) :
    ∀ (n : Nat) (d : List (String × String)), ms.Nodup →
      (∀ m ∈ ms, m ∉ d.map Prod.fst) →
      (ms.enumFrom n).foldl
          (fun d p => dictInsert d p.2 (colors.getD (p.1 % colors.length) "")) d =
        d ++ (ms.enumFrom n).map (fun p => (p.2, colors.getD (p.1 % colors.length) "")) := by
  induction ms with
  | nil => intro n d _ _; simp
  | cons m ms ih =>
    intro n d hnd hdisj
    simp only [List.enumFrom_cons, List.foldl_cons, List.map_cons]
    rw [dictInsert_of_not_mem (hdisj m (List.mem_cons_self m ms))]
    rw [List.nodup_cons] at hnd
    rw [ih (n + 1) _ hnd.2 ?_]
    · simp
    · intro m' hm'
      rw [List.map_append]
      simp only [List.mem_append, List.map_cons, List.map_nil, List.mem_singleton]
      rintro (h | rfl)
      · exact hdisj m' (List.mem_cons_of_mem m hm') h
      · exact hnd.1 hm'

/-- Color assignment into an empty dict lists
`(member, colors[i % 20])` in member order. -/
theorem assign_member_colors_fresh {ms : List String} (hnd : ms.Nodup) :
    assign_member_colors [] ms =
      ms.enum.map (fun p => (p.2, colors.getD (p.1 % colors.length) "")) := by
  unfold assign_member_colors
  rw [show ms.enum = ms.enumFrom 0 from rfl]
  rw [assign_fold_fresh ms 0 [] hnd (by simp)]
  rfl

theorem sortedMembers_nodup (raws : List RawEvent) : (sortedMembers raws).Nodup := by
  unfold sortedMembers
  exact (List.perm_insertionSort _ _).nodup_iff.2 (List.nodup_dedup _)

/-- Permuted successful parses give equal sorted member lists. -/
theorem sortedMembers_perm_eq {r1 r2 : List RawEvent} (h : r1.Perm r2) :
    sortedMembers r1 = sortedMembers r2 := by
  unfold sortedMembers
  have hs1 := List.sorted_insertionSort (fun a b : String => a ≤ b)
    ((r1.map RawEvent.member).dedup)
  have hs2 := List.sorted_insertionSort (fun a b : String => a ≤ b)
    ((r2.map RawEvent.member).dedup)
  have hp : (List.insertionSort (fun a b : String => a ≤ b) ((r1.map RawEvent.member).dedup)).Perm
      (List.insertionSort (fun a b : String => a ≤ b) ((r2.map RawEvent.member).dedup)) :=
    ((List.perm_insertionSort _ _).trans ((h.map RawEvent.member).dedup)).trans
      (List.perm_insertionSort _ _).symm
  exact List.eq_of_perm_of_sorted hp hs1 hs2

/-- C5: for permuted record sequences the resulting owner-to-color
mapping is identical, and on a successful parse it is exactly the sorted
distinct owners paired with `palette[index % palette_size]`. -/
theorem color_determinism (data1 data2 : List (List String))
    (hperm : data1.Perm data2) :
    color_map_of data1 = color_map_of data2 ∧
    ∀ raws, parseRows data1 = .ok raws →
      color_map_of data1 =
        (sortedMembers raws).enum.map
          (fun p => (p.2, colors.getD (p.1 % colors.length) "")) := by
  have hmech : ∀ data raws, parseRows data = .ok raws →
      color_map_of data =
        (sortedMembers raws).enum.map
          (fun p => (p.2, colors.getD (p.1 % colors.length) "")) := by
    intro data raws hok
    simp only [color_map_of, load_events_from_csv, hok]
    exact assign_member_colors_fresh (sortedMembers_nodup raws)
  refine ⟨?_, fun raws hok => hmech data1 raws hok⟩
  by_cases hbad : ∃ r ∈ data1, rowBad r = true
  · have hbad2 : ∃ r ∈ data2, rowBad r = true := by
      rcases hbad with ⟨r, hr, h⟩
      exact ⟨r, hperm.mem_iff.1 hr, h⟩
    simp only [color_map_of, load_events_from_csv,
      parseRows_error_of_bad hbad, parseRows_error_of_bad hbad2]
  · have hok1 : parseRows data1 = .ok (data1.filterMap rowParse) :=
      parseRows_ok_of_no_bad (fun r hr => by
        rcases h : rowBad r with _ | _
        · rfl
        · exact absurd ⟨r, hr, h⟩ hbad)
    have hok2 : parseRows data2 = .ok (data2.filterMap rowParse) :=
      parseRows_ok_of_no_bad (fun r hr => by
        rcases h : rowBad r with _ | _
        · rfl
        · exact absurd ⟨r, hperm.mem_iff.2 hr, h⟩ hbad)
    rw [hmech data1 _ hok1, hmech data2 _ hok2,
      sortedMembers_perm_eq (hperm.filterMap rowParse)]

/-- Witness for C5: swapping two records leaves the color map unchanged. -/
theorem color_determinism_witness :
    color_map_of [["2024/03/03", "2024/03/04", "B", "y"],
                  ["2024/03/05", "2024/03/06", "C", "z"]] =
      color_map_of [["2024/03/05", "2024/03/06", "C", "z"],
                    ["2024/03/03", "2024/03/04", "B", "y"]] :=
  (color_determinism _ _
    (List.Perm.swap ["2024/03/05", "2024/03/06", "C", "z"]
      ["2024/03/03", "2024/03/04", "B", "y"] [])).1

/-! ## Packing engine lemmas -/

/-- `all_dates[0]` of a window. -/
def windowStart (weeks : List (List Int)) : Int := weeks.flatten.headD 0

/-- `all_dates[-1]` of a window. -/
def windowEnd (weeks : List (List Int)) : Int := weeks.flatten.getLastD 0

/-- `relevant_events` inside `calculate_event_layout`. -/
def relevantEvents (events : List RawEvent) (weeks : List (List Int)) : List RawEvent :=
  get_events_for_date_range events (windowStart weeks) (windowEnd weeks)

/-- The engine's initial state: every date's occupancy list empty, no
assignments. -/
def packInit : Occ × Asg := (fun _ => [], [])

/-- The packing loop run over an arbitrary prefix of events. -/
def packFold (s e : Int) (l : List RawEvent) : Occ × Asg :=
  l.foldl (packStep s e) packInit

theorem calculate_event_layout_eq (events : List RawEvent) (weeks : List (List Int)) :
    calculate_event_layout events weeks =
      packFold (windowStart weeks) (windowEnd weeks) (relevantEvents events weeks) := rfl

theorem packFold_append (s e : Int) (l : List RawEvent) (ev : RawEvent) :
    packFold s e (l ++ [ev]) = packStep s e (packFold s e l) ev := by
  unfold packFold
  rw [List.foldl_append]
  rfl

theorem mem_clipDates {s e d : Int} {ev : RawEvent} :
    d ∈ clipDates s e ev ↔ max ev.start_date s ≤ d ∧ d ≤ min ev.end_date e :=
  mem_intRange

theorem clipDates_nodup (s e : Int) (ev : RawEvent) : (clipDates s e ev).Nodup :=
  intRange_nodup _ _

theorem getD_eq_some_lt {l : List (Option RawEvent)} {q : Nat} {x : RawEvent}
    (h : l.getD q none = some x) : q < l.length := by
  by_contra hq
  rw [List.getD_eq_default _ _ (by omega)] at h
  exact Option.noConfusion h

theorem placeOne_getD_self (l : List (Option RawEvent)) (p : Nat) (ev : RawEvent) :
    (placeOne l p ev).getD p none = some ev := by
  have hlen : p < (l ++ List.replicate (p + 1 - l.length) (none : Option RawEvent)).length := by
    rw [List.length_append, List.length_replicate]
    omega
  unfold placeOne
  rw [List.getD_eq_getElem?_getD, List.getElem?_set, if_pos rfl, if_pos hlen]
  rfl

theorem placeOne_getD_ne (l : List (Option RawEvent)) {p q : Nat} (h : q ≠ p)
    (ev : RawEvent) : (placeOne l p ev).getD q none = l.getD q none := by
  unfold placeOne
  rw [List.getD_eq_getElem?_getD, List.getD_eq_getElem?_getD, List.getElem?_set,
    if_neg (fun hh => h hh.symm), List.getElem?_append]
  by_cases hq : q < l.length
  · rw [if_pos hq]
  · rw [if_neg hq, List.getElem?_replicate]
    have hr : l[q]? = none := List.getElem?_eq_none (by omega)
    rw [hr]
    by_cases hq2 : q - l.length < p + 1 - l.length
    · rw [if_pos hq2]
      rfl
    · rw [if_neg hq2]

theorem canPlace_iff {occ : Occ} {dates : List Int} {p : Nat} :
    canPlace occ dates p = true ↔ ∀ d ∈ dates, (occ d).getD p none = none := by
  unfold canPlace
  rw [List.all_eq_true]
  constructor
  · intro h d hd
    have hb := h d hd
    rcases hx : (occ d).getD p none with _ | x
    · rfl
    · have hlt := getD_eq_some_lt hx
      rw [hx] at hb
      simp [hlt] at hb
  · intro h d hd
    rw [h d hd]
    simp

theorem foldl_max_ge_init (f : Int → Nat) (l : List Int) :
    ∀ a : Nat, a ≤ l.foldl (fun acc x => max acc (f x)) a := by
  induction l with
  | nil => intro a; exact le_refl a
  | cons x l ih =>
    intro a
    exact le_trans (Nat.le_max_left a (f x)) (ih (max a (f x)))

theorem foldl_max_ge_mem (f : Int → Nat) (l : List Int) :
    ∀ (a : Nat) (d : Int), d ∈ l → f d ≤ l.foldl (fun acc x => max acc (f x)) a := by
  induction l with
  | nil => intro a d hd; simp at hd
  | cons x l ih =>
    intro a d hd
    rcases List.mem_cons.1 hd with rfl | hd
    · exact le_trans (Nat.le_max_right a (f d)) (foldl_max_ge_init f l _)
    · exact ih (max a (f x)) d hd

theorem canPlace_maxOccLen (occ : Occ) (dates : List Int) :
    canPlace occ dates (maxOccLen occ dates) = true :=
  canPlace_iff.2 fun d hd =>
    List.getD_eq_default _ _ (foldl_max_ge_mem (fun x => (occ x).length) dates 0 d hd)

theorem findPosAux_spec (occ : Occ) (dates : List Int) :
    ∀ fuel p : Nat, (∃ k, k < fuel ∧ canPlace occ dates (p + k) = true) →
      canPlace occ dates (findPosAux occ dates fuel p) = true ∧
      p ≤ findPosAux occ dates fuel p ∧
      ∀ q, p ≤ q → q < findPosAux occ dates fuel p → canPlace occ dates q = false := by
  intro fuel
  induction fuel with
  | zero =>
    rintro p ⟨k, hk, _⟩
    omega
  | succ fuel ih =>
    intro p hex
    unfold findPosAux
    by_cases hc : canPlace occ dates p = true
    · rw [if_pos hc]
      exact ⟨hc, le_refl p, fun q h1 h2 => absurd h2 (by omega)⟩
    · rw [if_neg hc]
      have hex' : ∃ k, k < fuel ∧ canPlace occ dates (p + 1 + k) = true := by
        rcases hex with ⟨k, hk, hcp⟩
        rcases k with _ | k
        · rw [Nat.add_zero] at hcp
          exact absurd hcp hc
        · exact ⟨k, by omega, by rw [show p + 1 + k = p + (k + 1) by omega]; exact hcp⟩
      obtain ⟨h1, h2, h3⟩ := ih (p + 1) hex'
      refine ⟨h1, by omega, fun q hq1 hq2 => ?_⟩
      by_cases hqp : q = p
      · subst hqp
        cases hcb : canPlace occ dates q
        · rfl
        · exact absurd hcb hc
      · exact h3 q (by omega) hq2

theorem findPos_spec (occ : Occ) (dates : List Int) :
    canPlace occ dates (findPos occ dates) = true ∧
    ∀ q, q < findPos occ dates → canPlace occ dates q = false := by
  obtain ⟨h1, _, h3⟩ := findPosAux_spec occ dates (maxOccLen occ dates + 1) 0
    ⟨maxOccLen occ dates, by omega, by rw [Nat.zero_add]; exact canPlace_maxOccLen occ dates⟩
  exact ⟨h1, fun q hq => h3 q (Nat.zero_le q) hq⟩

theorem placeEvent_cons (occ : Occ) (d₀ : Int) (ds : List Int) (p : Nat) (ev : RawEvent) :
    placeEvent occ (d₀ :: ds) p ev =
      placeEvent (Function.update occ d₀ (placeOne (occ d₀) p ev)) ds p ev := rfl

theorem placeEvent_apply {dates : List Int} (hnd : dates.Nodup) (occ : Occ) (p : Nat)
    (ev : RawEvent) (d : Int) :
    placeEvent occ dates p ev d = if d ∈ dates then placeOne (occ d) p ev else occ d := by
  induction dates generalizing occ with
  | nil => simp [placeEvent]
  | cons d₀ ds ih =>
    rw [List.nodup_cons] at hnd
    rw [placeEvent_cons, ih hnd.2]
    by_cases hds : d ∈ ds
    · rw [if_pos hds, if_pos (List.mem_cons_of_mem _ hds)]
      have hne : d ≠ d₀ := fun hh => hnd.1 (hh ▸ hds)
      rw [Function.update_noteq hne]
    · rw [if_neg hds]
      by_cases hd0 : d = d₀
      · subst hd0
        rw [Function.update_same, if_pos (List.mem_cons_self _ _)]
      · rw [Function.update_noteq hd0, if_neg (by simp [hd0, hds])]

/-- The packing loop's running invariant: every recorded assignment
occupies its whole clipped range at its row, every occupied slot belongs
to a recorded assignment, and the assignments list the processed events
in order. -/
theorem packFold_inv (s e : Int) (l : List RawEvent) :
    (∀ ev r, (ev, r) ∈ (packFold s e l).2 → ∀ d ∈ clipDates s e ev,
        ((packFold s e l).1 d).getD r none = some ev) ∧
    (∀ d q x, ((packFold s e l).1 d).getD q none = some x →
        (x, q) ∈ (packFold s e l).2 ∧ d ∈ clipDates s e x) ∧
    (packFold s e l).2.map Prod.fst = l := by
  induction l using List.reverseRecOn with
  | nil =>
    refine ⟨?_, ?_, rfl⟩
    · intro ev r h
      simp [packFold, packInit] at h
    · intro d q x h
      simp [packFold, packInit] at h
  | append_singleton l ev ih =>
    obtain ⟨ihA, ihB, ihC⟩ := ih
    rw [packFold_append]
    simp only [packStep]
    have hnd : (clipDates s e ev).Nodup := clipDates_nodup s e ev
    have happ := placeEvent_apply hnd (packFold s e l).1
      (findPos (packFold s e l).1 (clipDates s e ev)) ev
    have hcan := (findPos_spec (packFold s e l).1 (clipDates s e ev)).1
    refine ⟨?_, ?_, ?_⟩
    · intro ev' r' hmem d hd
      rw [happ d]
      rcases List.mem_append.1 hmem with hmem | hmem
      · have hold := ihA ev' r' hmem d hd
        by_cases hdd : d ∈ clipDates s e ev
        · rw [if_pos hdd]
          by_cases hrp : r' = findPos (packFold s e l).1 (clipDates s e ev)
          · exfalso
            have hnone := canPlace_iff.1 hcan d hdd
            rw [hrp, hnone] at hold
            exact Option.noConfusion hold
          · rw [placeOne_getD_ne _ hrp _]
            exact hold
        · rw [if_neg hdd]
          exact hold
      · have heq := List.mem_singleton.1 hmem
        injection heq with h1 h2
        subst h1
        subst h2
        rw [if_pos hd]
        exact placeOne_getD_self _ _ _
    · intro d q x hslot
      rw [happ d] at hslot
      by_cases hdd : d ∈ clipDates s e ev
      · rw [if_pos hdd] at hslot
        by_cases hqp : q = findPos (packFold s e l).1 (clipDates s e ev)
        · subst hqp
          rw [placeOne_getD_self] at hslot
          injection hslot with hx
          subst hx
          exact ⟨List.mem_append.2 (Or.inr (List.mem_singleton.2 rfl)), hdd⟩
        · rw [placeOne_getD_ne _ hqp _] at hslot
          obtain ⟨h1, h2⟩ := ihB d q x hslot
          exact ⟨List.mem_append.2 (Or.inl h1), h2⟩
      · rw [if_neg hdd] at hslot
        obtain ⟨h1, h2⟩ := ihB d q x hslot
        exact ⟨List.mem_append.2 (Or.inl h1), h2⟩
    · rw [List.map_append, ihC]
      rfl

/-- C1: in any four-week window, two distinct packed events that occupy
the same visible date are assigned different rows. -/
theorem packing_no_collision (a : Int) (events : List RawEvent) (A B : RawEvent)
    (rA rB : Nat) (D : Int)
    (hA : (A, rA) ∈ (calculate_event_layout events (get_four_week_range a).1).2)
    (hB : (B, rB) ∈ (calculate_event_layout events (get_four_week_range a).1).2)
    (hne : A ≠ B)
    (hD : D ∈ ((get_four_week_range a).1).flatten)
    (hDA : A.start_date ≤ D ∧ D ≤ A.end_date)
    (hDB : B.start_date ≤ D ∧ D ≤ B.end_date) :
    rA ≠ rB := by
  have hs : windowStart (get_four_week_range a).1 = mondayOf a - 7 := window_join_headD a
  have he : windowEnd (get_four_week_range a).1 = mondayOf a + 20 := window_join_getLastD a
  have hDw := mem_window_join.1 hD
  rw [calculate_event_layout_eq] at hA hB
  obtain ⟨invA, _, _⟩ := packFold_inv (windowStart (get_four_week_range a).1)
    (windowEnd (get_four_week_range a).1) (relevantEvents events (get_four_week_range a).1)
  have h1 := invA A rA hA D (by rw [mem_clipDates, hs, he]; omega)
  have h2 := invA B rB hB D (by rw [mem_clipDates, hs, he]; omega)
  intro hEq
  rw [hEq] at h1
  rw [h1] at h2
  exact hne (Option.some.inj h2)

/-- Witness for C1: the spec's own example — events 2024-03-10..12 and
2024-03-11..13 overlap on 03-11/03-12 and receive rows 0 and 1. -/
theorem packing_no_collision_witness : (0 : Nat) ≠ 1 :=
  packing_no_collision 738960
    [⟨738955, 738957, "A", ""⟩, ⟨738956, 738958, "A", ""⟩]
    ⟨738955, 738957, "A", ""⟩ ⟨738956, 738958, "A", ""⟩ 0 1 738956
    (by decide) (by decide) (by decide) (by decide) (by decide) (by decide)

theorem packFold_length (s e : Int) (l : List RawEvent) :
    (packFold s e l).2.length = l.length := by
  have h := (packFold_inv s e l).2.2
  have := congrArg List.length h
  rw [List.length_map] at this
  exact this

/-- The `i`-th assignment records the `i`-th relevant event with the row
found by the first-fit search against the occupancy built from the
events before it. -/
theorem packFold_getElem? (s e : Int) (l : List RawEvent) :
    ∀ i, i < l.length →
      (packFold s e l).2[i]? =
        some (l.getD i defaultEvent,
          findPos ((packFold s e (l.take i)).1)
            (clipDates s e (l.getD i defaultEvent))) := by
  induction l using List.reverseRecOn with
  | nil =>
    intro i hi
    simp at hi
  | append_singleton l x ih =>
    intro i hi
    rw [packFold_append]
    simp only [packStep]
    rw [List.length_append, List.length_singleton] at hi
    by_cases hil : i < l.length
    · have hlen2 : i < (packFold s e l).2.length := by
        rw [packFold_length]
        exact hil
      have h1 : (l ++ [x]).getD i defaultEvent = l.getD i defaultEvent := by
        rw [List.getD_eq_getElem?_getD, List.getD_eq_getElem?_getD, List.getElem?_append,
          if_pos hil]
      have h2 : (l ++ [x]).take i = l.take i :=
        List.take_append_of_le_length (by omega)
      rw [List.getElem?_append, if_pos hlen2, h1, h2, ih i hil]
    · have hieq : i = l.length := by omega
      subst hieq
      have h1 : (l ++ [x]).getD l.length defaultEvent = x := by
        rw [List.getD_eq_getElem?_getD, List.getElem?_concat_length]
        rfl
      have h2 : (l ++ [x]).take l.length = l := List.take_left l [x]
      rw [h1, h2, ← packFold_length s e l, List.getElem?_concat_length]

/-- C8: the row assigned to each relevant event is the least row index
accepted by `canPlace` — i.e. the least row that is, on every visible
date of the event's clipped range, beyond the day's occupancy list or
explicitly empty — with respect to the occupancy state at the moment the
event is processed. -/
theorem first_fit_minimal (events : List RawEvent) (weeks : List (List Int)) (i : Nat)
    (hi : i < (relevantEvents events weeks).length) :
    (calculate_event_layout events weeks).2[i]? =
      some ((relevantEvents events weeks).getD i defaultEvent,
        findPos ((packFold (windowStart weeks) (windowEnd weeks)
            ((relevantEvents events weeks).take i)).1)
          (clipDates (windowStart weeks) (windowEnd weeks)
            ((relevantEvents events weeks).getD i defaultEvent))) ∧
    canPlace ((packFold (windowStart weeks) (windowEnd weeks)
          ((relevantEvents events weeks).take i)).1)
        (clipDates (windowStart weeks) (windowEnd weeks)
          ((relevantEvents events weeks).getD i defaultEvent))
        (findPos ((packFold (windowStart weeks) (windowEnd weeks)
            ((relevantEvents events weeks).take i)).1)
          (clipDates (windowStart weeks) (windowEnd weeks)
            ((relevantEvents events weeks).getD i defaultEvent))) = true ∧
    ∀ q, q < findPos ((packFold (windowStart weeks) (windowEnd weeks)
            ((relevantEvents events weeks).take i)).1)
          (clipDates (windowStart weeks) (windowEnd weeks)
            ((relevantEvents events weeks).getD i defaultEvent)) →
      canPlace ((packFold (windowStart weeks) (windowEnd weeks)
            ((relevantEvents events weeks).take i)).1)
          (clipDates (windowStart weeks) (windowEnd weeks)
            ((relevantEvents events weeks).getD i defaultEvent)) q = false := by
  refine ⟨?_, (findPos_spec _ _).1, (findPos_spec _ _).2⟩
  rw [calculate_event_layout_eq]
  exact packFold_getElem? (windowStart weeks) (windowEnd weeks)
    (relevantEvents events weeks) i hi

/-- Witness for C8: in the two-event example the second event's recorded
assignment is exactly the first-fit row against the state after the first
event. -/
theorem first_fit_minimal_witness :
    (calculate_event_layout
        [⟨738955, 738957, "A", ""⟩, ⟨738956, 738958, "A", ""⟩]
        (get_four_week_range 738960).1).2[1]? =
      some ((relevantEvents
          [⟨738955, 738957, "A", ""⟩, ⟨738956, 738958, "A", ""⟩]
          (get_four_week_range 738960).1).getD 1 defaultEvent,
        findPos ((packFold (windowStart (get_four_week_range 738960).1)
            (windowEnd (get_four_week_range 738960).1)
            ((relevantEvents
                [⟨738955, 738957, "A", ""⟩, ⟨738956, 738958, "A", ""⟩]
                (get_four_week_range 738960).1).take 1)).1)
          (clipDates (windowStart (get_four_week_range 738960).1)
            (windowEnd (get_four_week_range 738960).1)
            ((relevantEvents
                [⟨738955, 738957, "A", ""⟩, ⟨738956, 738958, "A", ""⟩]
                (get_four_week_range 738960).1).getD 1 defaultEvent))) :=
  (first_fit_minimal
    [⟨738955, 738957, "A", ""⟩, ⟨738956, 738958, "A", ""⟩]
    (get_four_week_range 738960).1 1 (by decide)).1

/-! ## C9: state shared between render calls -/

/-- C9 counterexample: render a one-event dataset (cell height becomes
120), then render an empty dataset on the same generator — the stale
cell height 120 survives, while a fresh generator rendering the empty
dataset keeps its initial 140.  The member-color dict also retains the
previous dataset's owner.  So render calls do share mutable state. -/
theorem render_state_leak :
    generate_svg initState 738960 (some [[], ["2024/03/15", "2024/03/15", "A", "x"]]) =
      .ok ⟨120, 120, 40, 10, 18, [("A", "#ffb3ba")], [⟨738960, 738960, "A", "x"⟩]⟩ ∧
    generate_svg ⟨120, 120, 40, 10, 18, [("A", "#ffb3ba")], [⟨738960, 738960, "A", "x"⟩]⟩
        738960 (some [[]]) =
      .ok ⟨120, 120, 40, 10, 18, [("A", "#ffb3ba")], []⟩ ∧
    generate_svg initState 738960 (some [[]]) =
      .ok ⟨120, 140, 40, 10, 18, [], []⟩ ∧
    (120 : Int) ≠ 140 :=
  ⟨by rfl, by rfl, by rfl, by decide⟩

theorem lookup_append (l₁ l₂ : List (String × String)) (k : String) :
    (l₁ ++ l₂).lookup k =
      match l₁.lookup k with
      | some v => some v
      | none => l₂.lookup k := by
  induction l₁ with
  | nil => rfl
  | cons p l₁ ih =>
    rcases p with ⟨k₀, v₀⟩
    simp only [List.cons_append, List.lookup]
    cases hb : k == k₀
    · exact ih
    · rfl

theorem lookup_map_replace {l : List (String × String)} {k : String} (v : String)
    (hmem : k ∈ l.map Prod.fst) :
    (l.map (fun p => if p.1 = k then (k, v) else p)).lookup k = some v := by
  induction l with
  | nil => simp at hmem
  | cons p l ih =>
    simp only [List.map_cons, List.mem_cons] at hmem
    simp only [List.map_cons]
    by_cases hp : p.1 = k
    · rw [if_pos hp]
      simp [List.lookup]
    · rw [if_neg hp]
      have hk : (k == p.1) = false := by
        rw [beq_eq_false_iff_ne]
        exact fun hh => hp hh.symm
      rcases hmem with hmem | hmem
      · exact absurd hmem.symm hp
      · simp only [List.lookup, hk]
        exact ih hmem

theorem lookup_map_replace_ne {l : List (String × String)} {k k' : String}
    (h : k' ≠ k) (v : String) :
    (l.map (fun p => if p.1 = k then (k, v) else p)).lookup k' = l.lookup k' := by
  induction l with
  | nil => rfl
  | cons p l ih =>
    simp only [List.map_cons]
    by_cases hp : p.1 = k
    · rw [if_pos hp]
      have h1 : (k' == k) = false := by rw [beq_eq_false_iff_ne]; exact h
      have h2 : (k' == p.1) = false := by rw [beq_eq_false_iff_ne, hp]; exact h
      simp only [List.lookup, h1, h2]
      exact ih
    · rw [if_neg hp]
      simp only [List.lookup]
      cases hb : k' == p.1
      · exact ih
      · rfl

theorem lookup_dictInsert_self (l : List (String × String)) (k v : String) :
    (dictInsert l k v).lookup k = some v := by
  by_cases hmem : k ∈ l.map Prod.fst
  · rw [dictInsert_of_mem hmem]
    exact lookup_map_replace v hmem
  · rw [dictInsert_of_not_mem hmem, lookup_append]
    have hnone : l.lookup k = none := by
      induction l with
      | nil => rfl
      | cons p l ih =>
        simp only [List.map_cons, List.mem_cons] at hmem
        have hk : (k == p.1) = false := by
          rw [beq_eq_false_iff_ne]
          exact fun hh => hmem (Or.inl hh)
        simp only [List.lookup, hk]
        exact ih (fun hh => hmem (Or.inr hh))
    rw [hnone]
    simp [List.lookup]

theorem lookup_dictInsert_ne (l : List (String × String)) {k k' : String}
    (h : k' ≠ k) (v : String) :
    (dictInsert l k v).lookup k' = l.lookup k' := by
  unfold dictInsert
  by_cases hany : l.any (fun p => p.1 = k)
  · rw [if_pos hany]
    exact lookup_map_replace_ne h v
  · rw [if_neg hany, lookup_append]
    have h1 : (k' == k) = false := by rw [beq_eq_false_iff_ne]; exact h
    simp only [List.lookup, h1]
    cases hl : l.lookup k'
    · rfl
    · rfl

theorem assign_fold_lookup_not_mem (ms : List String) :
    ∀ (n : Nat) (d : List (String × String)) (m : String), m ∉ ms →
      ((ms.enumFrom n).foldl
          (fun d p => dictInsert d p.2 (colors.getD (p.1 % colors.length) "")) d).lookup m =
        d.lookup m := by
  induction ms with
  | nil => intro n d m _; rfl
  | cons m₀ ms ih =>
    intro n d m hm
    simp only [List.mem_cons, not_or] at hm
    simp only [List.enumFrom_cons, List.foldl_cons]
    rw [ih (n + 1) _ m hm.2, lookup_dictInsert_ne _ hm.1 _]

theorem assign_fold_lookup_indep (ms : List String) :
    ∀ (n : Nat) (d₁ d₂ : List (String × String)) (m : String), ms.Nodup → m ∈ ms →
      ((ms.enumFrom n).foldl
          (fun d p => dictInsert d p.2 (colors.getD (p.1 % colors.length) "")) d₁).lookup m =
        ((ms.enumFrom n).foldl
          (fun d p => dictInsert d p.2 (colors.getD (p.1 % colors.length) "")) d₂).lookup m := by
  induction ms with
  | nil => intro n d₁ d₂ m _ hm; simp at hm
  | cons m₀ ms ih =>
    intro n d₁ d₂ m hnd hm
    rw [List.nodup_cons] at hnd
    simp only [List.enumFrom_cons, List.foldl_cons]
    rcases List.mem_cons.1 hm with rfl | hm
    · rw [assign_fold_lookup_not_mem ms (n + 1) _ m hnd.1,
        assign_fold_lookup_not_mem ms (n + 1) _ m hnd.1,
        lookup_dictInsert_self, lookup_dictInsert_self]
    · exact ih (n + 1) _ _ m hnd.2 hm

/-- The color dict held before `assign_member_colors` runs does not
influence the color subsequently looked up for any member of the current
dataset. -/
theorem assign_member_colors_lookup_indep (d : List (String × String))
    {ms : List String} {m : String} (hnd : ms.Nodup) (hm : m ∈ ms) :
    (assign_member_colors d ms).lookup m = (assign_member_colors [] ms).lookup m :=
  assign_fold_lookup_indep ms 0 d [] m hnd hm

theorem load_ok_fixed_fields {st : GenState} {csv : Option (List (List String))}
    {s' : GenState} (h : load_events_from_csv st csv = .ok s') :
    s'.event_height = st.event_height ∧ s'.cell_height = st.cell_height := by
  match csv with
  | none =>
    injection h with h
    subst h
    exact ⟨rfl, rfl⟩
  | some [] => exact absurd h (by simp [load_events_from_csv])
  | some (hd :: data) =>
    simp only [load_events_from_csv] at h
    cases hp : parseRows data with
    | error e =>
      rw [hp] at h
      exact absurd h (by simp)
    | ok raws =>
      rw [hp] at h
      injection h with h
      subst h
      exact ⟨rfl, rfl⟩

theorem generate_svg_event_height {st : GenState} {a : Int}
    {csv : Option (List (List String))} {s' : GenState}
    (h : generate_svg st a csv = .ok s') : s'.event_height = st.event_height := by
  simp only [generate_svg] at h
  split at h
  · exact absurd h (by simp)
  · rename_i s1 heq
    have hfix := (load_ok_fixed_fields heq).1
    split at h
    · injection h with h
      subst h
      exact hfix
    · injection h with h
      subst h
      exact hfix

/-- C9 amended: the generator does share instance state between render
calls (see `render_state_leak`), but when the second dataset's CSV is
present and parses, the second render's event set equals a fresh
render's, every owner of the second dataset gets the same color as in a
fresh render, and — provided the second dataset occupies at least one
row slot in the window — the derived cell height also equals the fresh
render's. -/
theorem render_reload_agrees (a : Int) (csvA : Option (List (List String)))
    (header : List String) (data : List (List String)) (raws : List RawEvent)
    (s1 s2 s3 : GenState)
    (hp : parseRows data = .ok raws)
    (h1 : generate_svg initState a csvA = .ok s1)
    (h2 : generate_svg s1 a (some (header :: data)) = .ok s2)
    (h3 : generate_svg initState a (some (header :: data)) = .ok s3) :
    s2.events = s3.events ∧
    (∀ m ∈ raws.map RawEvent.member,
      s2.member_colors.lookup m = s3.member_colors.lookup m) ∧
    (0 < maxEventsOf (get_four_week_range a).1
        (calculate_event_layout (remove_duplicate_events raws)
          (get_four_week_range a).1).1 →
      s2.cell_height = s3.cell_height) := by
  have heh : s1.event_height = initState.event_height := generate_svg_event_height h1
  have hmemcol : ∀ m ∈ raws.map RawEvent.member,
      (assign_member_colors s1.member_colors (sortedMembers raws)).lookup m =
        (assign_member_colors [] (sortedMembers raws)).lookup m := by
    intro m hm
    apply assign_member_colors_lookup_indep _ (sortedMembers_nodup raws)
    unfold sortedMembers
    rw [(List.perm_insertionSort _ _).mem_iff, List.mem_dedup]
    exact hm
  simp only [generate_svg, load_events_from_csv, hp] at h2 h3
  split at h2 <;> split at h3
  · injection h2 with h2
    injection h3 with h3
    subst h2
    subst h3
    refine ⟨rfl, hmemcol, fun _ => ?_⟩
    simp only [heh]
  · rename_i hc1 hc2
    exact absurd hc1 hc2
  · rename_i hc1 hc2
    exact absurd hc2 hc1
  · injection h2 with h2
    injection h3 with h3
    subst h2
    subst h3
    rename_i hc1 hc2
    exact ⟨rfl, hmemcol, fun hmax => absurd hmax hc1⟩

/-- Witness for the amended C9: rendering dataset A then dataset B agrees
with a fresh render of B on events, B's owner color, and cell height. -/
theorem render_reload_agrees_witness :
    ([⟨738965, 738966, "B", "y"⟩] : List RawEvent) = [⟨738965, 738966, "B", "y"⟩] ∧
    ([("A", "#ffb3ba"), ("B", "#ffb3ba")] : List (String × String)).lookup "B" =
      ([("B", "#ffb3ba")] : List (String × String)).lookup "B" ∧
    (120 : Int) = 120 := by
  obtain ⟨ha, hb, hc⟩ := render_reload_agrees 738960
    (some [[], ["2024/03/15", "2024/03/15", "A", "x"]])
    [] [["2024/03/20", "2024/03/21", "B", "y"]] [⟨738965, 738966, "B", "y"⟩]
    ⟨120, 120, 40, 10, 18, [("A", "#ffb3ba")], [⟨738960, 738960, "A", "x"⟩]⟩
    ⟨120, 120, 40, 10, 18, [("A", "#ffb3ba"), ("B", "#ffb3ba")],
      [⟨738965, 738966, "B", "y"⟩]⟩
    ⟨120, 120, 40, 10, 18, [("B", "#ffb3ba")], [⟨738965, 738966, "B", "y"⟩]⟩
    (by rfl) (by rfl) (by rfl) (by rfl)
  exact ⟨ha, hb "B" (by decide), hc (by decide)⟩

/-! ## C7: band synthesis (the event-drawing loop of `generate_svg`) -/

/-- One emitted event band: the data of one `<rect>`/label pair drawn for
an event within a single week. -/
structure Band where
  event : RawEvent
  week_idx : Nat
  row : Nat
  bstart : Int
  bend : Int
  blen : Int
  text : String
  color : String
  deriving DecidableEq, Repr

/-- The label text built for a band's leading edge. -/
def displayTextFor (ev : RawEvent) : String :=
  if !(ev.description.trim.isEmpty) then
    ev.member ++ ": " ++ ev.description.take 15 ++
      (if 15 < ev.description.length then "..." else "")
  else ev.member

/-- The band emitted for `ev` at day `d` in week `wi` (`w0 = week[0]`,
`w6 = week[6]`), at occupancy row `pos`. -/
def mkBand (memColors : List (String × String)) (wi : Nat) (w0 w6 d : Int)
    (pos : Nat) (ev : RawEvent) : Band :=
  let event_start_in_week := max ev.start_date w0
  let event_end_in_week := min ev.end_date w6
  { event := ev, week_idx := wi, row := pos,
    bstart := event_start_in_week, bend := event_end_in_week,
    blen := pyWeekday event_end_in_week - pyWeekday event_start_in_week + 1,
    text := if ev.start_date = d ∨ event_start_in_week = d then displayTextFor ev else "",
    color := (memColors.lookup ev.member).getD "#f0f0f0" }

/-- Processing of one occupancy slot `(pos, event)` of one day: skip
`None` slots, skip events already drawn this week, require the day inside
the event's range, and draw only on the day the event starts within this
week. -/
def scanSlot (memColors : List (String × String)) (wi : Nat) (w0 w6 d : Int)
    (st : List (String × Int × Int) × List Band) (pos : Nat) (slot : Option RawEvent) :
    List (String × Int × Int) × List Band :=
  match slot with
  | none => st
  | some ev =>
    if eventKey ev ∈ st.1 then st
    else if ev.start_date ≤ d ∧ d ≤ ev.end_date then
      if max ev.start_date w0 = d then
        (st.1 ++ [eventKey ev], st.2 ++ [mkBand memColors wi w0 w6 d pos ev])
      else st
    else st

/-- The inner `for pos, event in enumerate(events_on_date)` loop, started
at enumeration index `n`. -/
def scanSlotsFrom (memColors : List (String × String)) (wi : Nat) (w0 w6 d : Int)
    (st : List (String × Int × Int) × List Band) (n : Nat)
    (slots : List (Option RawEvent)) : List (String × Int × Int) × List Band :=
  (slots.enumFrom n).foldl (fun st p => scanSlot memColors wi w0 w6 d st p.1 p.2) st

/-- One day of the drawing loop. -/
def scanDay (memColors : List (String × String)) (wi : Nat) (w0 w6 : Int)
    (st : List (String × Int × Int) × List Band) (d : Int)
    (slots : List (Option RawEvent)) : List (String × Int × Int) × List Band :=
  (slots.enum).foldl (fun st p => scanSlot memColors wi w0 w6 d st p.1 p.2) st

/-- One week of the drawing loop: a fresh `drawn_events` set, then the
seven days in order (each day's occupancy is consulted only when the day
is a key of `date_event_positions`, i.e. a window date). -/
def scanWeek (memColors : List (String × String)) (wi : Nat) (week : List Int)
    (occ : Occ) (all_dates : List Int) : List Band :=
  (week.foldl
    (fun st d =>
      if d ∈ all_dates then
        scanDay memColors wi (week.headD 0) (week.getD 6 0) st d (occ d)
      else st)
    ([], [])).2

/-- The full band-emission pass of `generate_svg`, week by week. -/
def synthesize_bands (memColors : List (String × String)) (weeks : List (List Int))
    (occ : Occ) : List Band :=
  ((weeks.enum).map (fun p => scanWeek memColors p.1 p.2 occ weeks.flatten)).flatten

theorem scanDay_eq_scanSlotsFrom (memColors : List (String × String)) (wi : Nat)
    (w0 w6 d : Int) (st : List (String × Int × Int) × List Band)
    (slots : List (Option RawEvent)) :
    scanDay memColors wi w0 w6 st d slots =
      scanSlotsFrom memColors wi w0 w6 d st 0 slots := rfl

theorem scanSlotsFrom_cons (memColors : List (String × String)) (wi : Nat)
    (w0 w6 d : Int) (st : List (String × Int × Int) × List Band) (n : Nat)
    (slot : Option RawEvent) (rest : List (Option RawEvent)) :
    scanSlotsFrom memColors wi w0 w6 d st n (slot :: rest) =
      scanSlotsFrom memColors wi w0 w6 d
        (scanSlot memColors wi w0 w6 d st n slot) (n + 1) rest := rfl

/-- A slot holding an event with a different key never touches the traced
key's drawn-flag or bands. -/
theorem scanSlot_other_key {memColors : List (String × String)} {wi : Nat}
    {w0 w6 d : Int} {st : List (String × Int × Int) × List Band} {pos : Nat}
    {x ev : RawEvent} (hxk : eventKey x ≠ eventKey ev) :
    (scanSlot memColors wi w0 w6 d st pos (some x)).2.filter
        (fun b => decide (eventKey b.event = eventKey ev)) =
      st.2.filter (fun b => decide (eventKey b.event = eventKey ev)) ∧
    (eventKey ev ∈ (scanSlot memColors wi w0 w6 d st pos (some x)).1 ↔
      eventKey ev ∈ st.1) := by
  simp only [scanSlot]
  by_cases h1 : eventKey x ∈ st.1
  · rw [if_pos h1]
    exact ⟨rfl, Iff.rfl⟩
  · rw [if_neg h1]
    by_cases h2 : x.start_date ≤ d ∧ d ≤ x.end_date
    · rw [if_pos h2]
      by_cases h3 : max x.start_date w0 = d
      · rw [if_pos h3]
        constructor
        · rw [List.filter_append, List.filter_cons_of_neg (by simpa using hxk),
            List.filter_nil, List.append_nil]
        · simp only [List.mem_append, List.mem_singleton]
          constructor
          · rintro (h | h)
            · exact h
            · exact absurd h.symm hxk
          · exact Or.inl
      · rw [if_neg h3]
        exact ⟨rfl, Iff.rfl⟩
    · rw [if_neg h2]
      exact ⟨rfl, Iff.rfl⟩

/-- Trace of one day's slot scan with respect to one traced event `ev`
(assigned row `r`): given that the scanned slots are the day's occupancy
from index `n` on, that `ev` sits at row `r` on each of its clipped
dates, and that slots holding `ev`'s key hold exactly `ev` at row `r`,
the scan emits the event's band exactly when the event is not yet drawn,
its row has not been passed, the day is in its clipped range, and the day
is where the event starts in this week. -/
theorem scanSlotsFrom_key (memColors : List (String × String)) (occ : Occ)
    (s e : Int) (ev : RawEvent) (r : Nat) (wi : Nat) (w0 w6 d : Int)
    (hAd : d ∈ clipDates s e ev → (occ d).getD r none = some ev)
    (hUq : ∀ q x, (occ d).getD q none = some x → eventKey x = eventKey ev → x = ev ∧ q = r)
    (hBd : ∀ q, (occ d).getD q none = some ev → d ∈ clipDates s e ev) :
    ∀ (slots : List (Option RawEvent)) (n : Nat)
      (st : List (String × Int × Int) × List Band),
      (∀ j : Nat, slots.getD j none = (occ d).getD (n + j) none) →
      ((scanSlotsFrom memColors wi w0 w6 d st n slots).2.filter
          (fun b => decide (eventKey b.event = eventKey ev)) =
        st.2.filter (fun b => decide (eventKey b.event = eventKey ev)) ++
          (if eventKey ev ∉ st.1 ∧ n ≤ r ∧ d ∈ clipDates s e ev ∧
              max ev.start_date w0 = d
           then [mkBand memColors wi w0 w6 d r ev] else [])) ∧
      (eventKey ev ∈ (scanSlotsFrom memColors wi w0 w6 d st n slots).1 ↔
        eventKey ev ∈ st.1 ∨
          (n ≤ r ∧ d ∈ clipDates s e ev ∧ max ev.start_date w0 = d)) := by
  intro slots
  induction slots with
  | nil =>
    intro n st hsuf
    have hcond : ¬(n ≤ r ∧ d ∈ clipDates s e ev ∧ max ev.start_date w0 = d) := by
      rintro ⟨hnr, hclip, _⟩
      have h0 := hsuf (r - n)
      rw [show n + (r - n) = r by omega, hAd hclip] at h0
      simp at h0
    refine ⟨?_, ?_⟩
    · rw [if_neg (fun hh => hcond hh.2), List.append_nil]
      rfl
    · rw [show scanSlotsFrom memColors wi w0 w6 d st n [] = st from rfl]
      exact (or_iff_left hcond).symm
  | cons slot rest ih =>
    intro n st hsuf
    rw [scanSlotsFrom_cons]
    have hsuf' : ∀ j : Nat, rest.getD j none = (occ d).getD (n + 1 + j) none := by
      intro j
      have h := hsuf (j + 1)
      rw [show n + (j + 1) = n + 1 + j by omega] at h
      simpa using h
    have h0 := hsuf 0
    rw [Nat.add_zero] at h0
    simp only [List.getD_cons_zero] at h0
    cases slot with
    | none =>
      have hnr : ¬(n = r ∧ d ∈ clipDates s e ev) := by
        rintro ⟨rfl, hclip⟩
        rw [hAd hclip] at h0
        exact Option.noConfusion h0
      have hiff : (n + 1 ≤ r ∧ d ∈ clipDates s e ev ∧ max ev.start_date w0 = d) ↔
          (n ≤ r ∧ d ∈ clipDates s e ev ∧ max ev.start_date w0 = d) := by
        constructor
        · rintro ⟨h1, h2, h3⟩
          exact ⟨by omega, h2, h3⟩
        · rintro ⟨h1, h2, h3⟩
          refine ⟨?_, h2, h3⟩
          rcases Nat.lt_or_ge n r with h | h
          · omega
          · exact absurd ⟨by omega, h2⟩ hnr
      simp only [scanSlot]
      obtain ⟨ih1, ih2⟩ := ih (n + 1) st hsuf'
      constructor
      · rw [ih1]
        simp only [hiff]
      · rw [ih2]
        simp only [hiff]
    | some x =>
      by_cases hxk : eventKey x = eventKey ev
      · have hq := hUq n x h0.symm hxk
        have hxev : x = ev := hq.1
        have hnr : n = r := hq.2
        rw [hxev] at h0 ⊢
        rw [hnr] at h0 hsuf' ⊢
        have hclip : d ∈ clipDates s e ev := hBd r h0.symm
        simp only [scanSlot]
        by_cases hmem : eventKey ev ∈ st.1
        · rw [if_pos hmem]
          obtain ⟨ih1, ih2⟩ := ih (r + 1) st hsuf'
          constructor
          · rw [ih1, if_neg (fun hh => hh.1 hmem), if_neg (fun hh => hh.1 hmem)]
          · rw [ih2]
            simp [hmem]
        · rw [if_neg hmem]
          have hrange : ev.start_date ≤ d ∧ d ≤ ev.end_date := by
            rw [mem_clipDates] at hclip
            exact ⟨le_trans (le_max_left _ _) hclip.1,
              le_trans hclip.2 (min_le_left _ _)⟩
          rw [if_pos hrange]
          by_cases hmax : max ev.start_date w0 = d
          · rw [if_pos hmax]
            obtain ⟨ih1, ih2⟩ := ih (r + 1)
              (st.1 ++ [eventKey ev], st.2 ++ [mkBand memColors wi w0 w6 d r ev]) hsuf'
            have hmem' : eventKey ev ∈ st.1 ++ [eventKey ev] :=
              List.mem_append.2 (Or.inr (List.mem_singleton.2 rfl))
            constructor
            · rw [ih1]
              rw [if_neg (fun hh => hh.1 hmem')]
              rw [if_pos ⟨hmem, le_refl r, hclip, hmax⟩]
              rw [List.filter_append, List.filter_cons_of_pos (by simp [mkBand]),
                List.filter_nil, List.append_nil]
            · rw [ih2]
              constructor
              · intro _
                exact Or.inr ⟨le_refl r, hclip, hmax⟩
              · intro _
                exact Or.inl hmem'
          · rw [if_neg hmax]
            obtain ⟨ih1, ih2⟩ := ih (r + 1) st hsuf'
            constructor
            · rw [ih1, if_neg (fun hh => hmax hh.2.2.2), if_neg (fun hh => hmax hh.2.2.2)]
            · rw [ih2]
              constructor
              · rintro (h | ⟨_, _, h⟩)
                · exact Or.inl h
                · exact absurd h hmax
              · rintro (h | ⟨_, _, h⟩)
                · exact Or.inl h
                · exact absurd h hmax
      · obtain ⟨hp1, hp2⟩ := @scanSlot_other_key memColors wi w0 w6 d st n x ev hxk
        have hnr : ¬(n = r ∧ d ∈ clipDates s e ev) := by
          rintro ⟨rfl, hclip⟩
          rw [hAd hclip] at h0
          exact hxk (by rw [Option.some.inj h0])
        have hiff : (n + 1 ≤ r ∧ d ∈ clipDates s e ev ∧ max ev.start_date w0 = d) ↔
            (n ≤ r ∧ d ∈ clipDates s e ev ∧ max ev.start_date w0 = d) := by
          constructor
          · rintro ⟨h1, h2, h3⟩
            exact ⟨by omega, h2, h3⟩
          · rintro ⟨h1, h2, h3⟩
            refine ⟨?_, h2, h3⟩
            rcases Nat.lt_or_ge n r with h | h
            · omega
            · exact absurd ⟨by omega, h2⟩ hnr
        obtain ⟨ih1, ih2⟩ := ih (n + 1) (scanSlot memColors wi w0 w6 d st n (some x)) hsuf'
        constructor
        · rw [ih1, hp1]
          simp only [hp2, hiff]
        · rw [ih2, hp2]
          simp only [hiff]

/-- Trace of one week of the drawing loop for one traced event: exactly
one band is emitted — with the week-clipped span and the event's row —
iff some day of the week is both in the event's window-clipped range and
equal to the event's start within the week. -/
theorem weekFold_key (memColors : List (String × String)) (occ : Occ)
    (s e : Int) (ev : RawEvent) (r : Nat) (wi : Nat) (w0 w6 : Int)
    (all_dates : List Int)
    (hA : ∀ d ∈ clipDates s e ev, (occ d).getD r none = some ev)
    (hUq : ∀ d (q : Nat) x, (occ d).getD q none = some x →
      eventKey x = eventKey ev → x = ev ∧ q = r)
    (hB : ∀ (d : Int) (q : Nat), (occ d).getD q none = some ev → d ∈ clipDates s e ev) :
    ∀ (days : List Int) (st : List (String × Int × Int) × List Band),
      (∀ d ∈ days, d ∈ all_dates) →
      ((days.foldl
          (fun st d => if d ∈ all_dates then scanDay memColors wi w0 w6 st d (occ d) else st)
          st).2.filter (fun b => decide (eventKey b.event = eventKey ev)) =
        st.2.filter (fun b => decide (eventKey b.event = eventKey ev)) ++
          (if eventKey ev ∉ st.1 ∧ ∃ d ∈ days, d ∈ clipDates s e ev ∧
              max ev.start_date w0 = d
           then [mkBand memColors wi w0 w6 (max ev.start_date w0) r ev] else [])) ∧
      (eventKey ev ∈ (days.foldl
          (fun st d => if d ∈ all_dates then scanDay memColors wi w0 w6 st d (occ d) else st)
          st).1 ↔
        eventKey ev ∈ st.1 ∨
          ∃ d ∈ days, d ∈ clipDates s e ev ∧ max ev.start_date w0 = d) := by
  intro days
  induction days with
  | nil =>
    intro st _
    refine ⟨?_, ?_⟩
    · rw [if_neg (by rintro ⟨_, d, hd, _⟩; simp at hd), List.append_nil]
      rfl
    · rw [List.foldl_nil]
      constructor
      · exact Or.inl
      · rintro (h | ⟨d, hd, _⟩)
        · exact h
        · simp at hd
  | cons d₀ ds ihw =>
    intro st hall
    rw [List.foldl_cons, if_pos (hall d₀ (List.mem_cons_self _ _))]
    obtain ⟨day1, day2⟩ := (scanSlotsFrom_key memColors occ s e ev r wi w0 w6 d₀
      (fun hd => hA d₀ hd) (hUq d₀) (hB d₀)) (occ d₀) 0 st (fun j => by rw [Nat.zero_add])
    rw [scanDay_eq_scanSlotsFrom]
    obtain ⟨w1, w2⟩ := ihw (scanSlotsFrom memColors wi w0 w6 d₀ st 0 (occ d₀))
      (fun d hd => hall d (List.mem_cons_of_mem _ hd))
    constructor
    · rw [w1, day1]
      by_cases hm : eventKey ev ∈ st.1
      · rw [if_neg (fun hh => hh.1 hm), if_neg (fun hh => hh.1 (day2.2 (Or.inl hm))),
          if_neg (fun hh => hh.1 hm)]
        simp
      · by_cases hP0 : d₀ ∈ clipDates s e ev ∧ max ev.start_date w0 = d₀
        · rw [if_pos ⟨hm, Nat.zero_le r, hP0.1, hP0.2⟩,
            if_neg (fun hh => hh.1 (day2.2 (Or.inr ⟨Nat.zero_le r, hP0.1, hP0.2⟩))),
            if_pos ⟨hm, d₀, List.mem_cons_self _ _, hP0⟩]
          rw [← hP0.2]
          simp
        · rw [if_neg (fun hh => hP0 ⟨hh.2.2.1, hh.2.2.2⟩)]
          have hm' : eventKey ev ∉ (scanSlotsFrom memColors wi w0 w6 d₀ st 0 (occ d₀)).1 := by
            intro hh
            rcases day2.1 hh with h | h
            · exact hm h
            · exact hP0 ⟨h.2.1, h.2.2⟩
          by_cases hPs : ∃ d ∈ ds, d ∈ clipDates s e ev ∧ max ev.start_date w0 = d
          · rcases hPs with ⟨d, hd, hP⟩
            rw [if_pos ⟨hm', d, hd, hP⟩,
              if_pos ⟨hm, d, List.mem_cons_of_mem _ hd, hP⟩]
            simp
          · rw [if_neg (fun hh => hPs hh.2)]
            rw [if_neg ?_]
            · simp
            · rintro ⟨_, d, hd, hP⟩
              rcases List.mem_cons.1 hd with rfl | hd
              · exact hP0 hP
              · exact hPs ⟨d, hd, hP⟩
    · rw [w2, day2]
      constructor
      · rintro ((h | ⟨_, h1, h2⟩) | ⟨d, hd, hP⟩)
        · exact Or.inl h
        · exact Or.inr ⟨d₀, List.mem_cons_self _ _, h1, h2⟩
        · exact Or.inr ⟨d, List.mem_cons_of_mem _ hd, hP⟩
      · rintro (h | ⟨d, hd, hP⟩)
        · exact Or.inl (Or.inl h)
        · rcases List.mem_cons.1 hd with rfl | hd
          · exact Or.inl (Or.inr ⟨Nat.zero_le r, hP⟩)
          · exact Or.inr ⟨d, hd, hP⟩

theorem mkBand_event (memColors : List (String × String)) (wi : Nat) (w0 w6 d : Int)
    (pos : Nat) (ev : RawEvent) : (mkBand memColors wi w0 w6 d pos ev).event = ev := rfl

theorem mkBand_week_idx (memColors : List (String × String)) (wi : Nat) (w0 w6 d : Int)
    (pos : Nat) (ev : RawEvent) : (mkBand memColors wi w0 w6 d pos ev).week_idx = wi := rfl

theorem mkBand_row (memColors : List (String × String)) (wi : Nat) (w0 w6 d : Int)
    (pos : Nat) (ev : RawEvent) : (mkBand memColors wi w0 w6 d pos ev).row = pos := rfl

theorem mkBand_bstart (memColors : List (String × String)) (wi : Nat) (w0 w6 d : Int)
    (pos : Nat) (ev : RawEvent) :
    (mkBand memColors wi w0 w6 d pos ev).bstart = max ev.start_date w0 := rfl

theorem mkBand_bend (memColors : List (String × String)) (wi : Nat) (w0 w6 d : Int)
    (pos : Nat) (ev : RawEvent) :
    (mkBand memColors wi w0 w6 d pos ev).bend = min ev.end_date w6 := rfl

/-- `scanWeek` over a 7-day week range emits exactly one band for the
traced event iff some day of the week both lies in the event's clipped
range and is the event's start within the week. -/
theorem scanWeek_key (memColors : List (String × String)) (occ : Occ)
    (s e : Int) (ev : RawEvent) (r : Nat) (wi : Nat) (w0 w6 : Int) (h6 : w6 = w0 + 6)
    (all_dates : List Int)
    (hA : ∀ d ∈ clipDates s e ev, (occ d).getD r none = some ev)
    (hUq : ∀ d (q : Nat) x, (occ d).getD q none = some x →
      eventKey x = eventKey ev → x = ev ∧ q = r)
    (hB : ∀ (d : Int) (q : Nat), (occ d).getD q none = some ev → d ∈ clipDates s e ev)
    (hall : ∀ d ∈ intRange w0 w6, d ∈ all_dates) :
    (scanWeek memColors wi (intRange w0 w6) occ all_dates).filter
        (fun b => decide (eventKey b.event = eventKey ev)) =
      if ∃ d ∈ intRange w0 w6, d ∈ clipDates s e ev ∧ max ev.start_date w0 = d
      then [mkBand memColors wi w0 w6 (max ev.start_date w0) r ev] else [] := by
  unfold scanWeek
  have hh : (intRange w0 w6).headD 0 = w0 := headD_intRange (by omega)
  have hg : (intRange w0 w6).getD 6 0 = w6 := by
    rw [getD_intRange (by omega)]
    omega
  rw [hh, hg]
  obtain ⟨h1, _⟩ := weekFold_key memColors occ s e ev r wi w0 w6 all_dates hA hUq hB
    (intRange w0 w6) ([], []) hall
  rw [h1]
  simp

/-- An event relevant to the window is visible in a week inside the
window iff some day of the week is in its clipped range and equals its
start within the week. -/
theorem week_visibility (s e w0 w6 : Int) (ev : RawEvent)
    (hse : ev.start_date ≤ ev.end_date)
    (hrel : ¬(ev.end_date < s ∨ ev.start_date > e))
    (hw : s ≤ w0 ∧ w6 = w0 + 6 ∧ w6 ≤ e) :
    (∃ d ∈ intRange w0 w6, d ∈ clipDates s e ev ∧ max ev.start_date w0 = d) ↔
      ¬(ev.end_date < w0 ∨ ev.start_date > w6) := by
  have f1 := le_max_left ev.start_date w0
  have f2 := le_max_right ev.start_date w0
  have f3 := max_choice ev.start_date w0
  have f4 := le_max_left ev.start_date s
  have f5 := le_max_right ev.start_date s
  have f6 := max_choice ev.start_date s
  have f7 := min_le_left ev.end_date e
  have f8 := min_le_right ev.end_date e
  have f9 := min_choice ev.end_date e
  constructor
  · rintro ⟨d, hd, hclip, hm⟩
    rw [mem_intRange] at hd
    rw [mem_clipDates] at hclip
    omega
  · intro hvis
    refine ⟨max ev.start_date w0, ?_, ?_, rfl⟩
    · rw [mem_intRange]
      omega
    · rw [mem_clipDates]
      omega

/-- Membership in the four-if band list. -/
theorem mem_four_ifs {b x0 x1 x2 x3 : Band} {C0 C1 C2 C3 : Prop}
    [Decidable C0] [Decidable C1] [Decidable C2] [Decidable C3]
    (hb : b ∈ (if C0 then [x0] else []) ++ (if C1 then [x1] else []) ++
      (if C2 then [x2] else []) ++ (if C3 then [x3] else [])) :
    (C0 ∧ b = x0) ∨ (C1 ∧ b = x1) ∨ (C2 ∧ b = x2) ∨ (C3 ∧ b = x3) := by
  simp only [List.mem_append] at hb
  rcases hb with ((hb | hb) | hb) | hb
  · refine Or.inl ?_
    by_cases hc : C0
    · rw [if_pos hc] at hb
      exact ⟨hc, List.mem_singleton.1 hb⟩
    · rw [if_neg hc] at hb
      simp at hb
  · refine Or.inr (Or.inl ?_)
    by_cases hc : C1
    · rw [if_pos hc] at hb
      exact ⟨hc, List.mem_singleton.1 hb⟩
    · rw [if_neg hc] at hb
      simp at hb
  · refine Or.inr (Or.inr (Or.inl ?_))
    by_cases hc : C2
    · rw [if_pos hc] at hb
      exact ⟨hc, List.mem_singleton.1 hb⟩
    · rw [if_neg hc] at hb
      simp at hb
  · refine Or.inr (Or.inr (Or.inr ?_))
    by_cases hc : C3
    · rw [if_pos hc] at hb
      exact ⟨hc, List.mem_singleton.1 hb⟩
    · rw [if_neg hc] at hb
      simp at hb

/-- In a pair list with distinct first components, a first component
determines its pair. -/
theorem pair_unique_of_nodup_fst {α β : Type} {l : List (α × β)}
    (h : (l.map Prod.fst).Nodup) {x : α} {a b : β}
    (ha : (x, a) ∈ l) (hb : (x, b) ∈ l) : a = b := by
  induction l with
  | nil => simp at ha
  | cons p l ih =>
    simp only [List.map_cons, List.nodup_cons] at h
    rcases List.mem_cons.1 ha with ha' | ha' <;> rcases List.mem_cons.1 hb with hb' | hb'
    · rw [← ha'] at hb'
      exact (Prod.mk.injEq _ _ _ _ ▸ hb').2.symm
    · exfalso
      apply h.1
      rw [← ha']
      exact List.mem_map.2 ⟨(x, b), hb', rfl⟩
    · exfalso
      apply h.1
      rw [← hb']
      exact List.mem_map.2 ⟨(x, a), ha', rfl⟩
    · exact ih h.2 ha' hb'

/-- Facts about the packed occupancy needed by the drawing loop, for one
packed event of a deduplicated (key-distinct) event list: the event fills
row `r` over its clipped range, any slot holding its key holds exactly it
at row `r`, slots holding it lie in its clipped range, and it is relevant
to the window. -/
theorem layout_slots_facts (a : Int) (es : List RawEvent) (ev : RawEvent) (r : Nat)
    (hkeys : (es.map eventKey).Nodup)
    (hmem : (ev, r) ∈ (calculate_event_layout es (get_four_week_range a).1).2) :
    (∀ d ∈ clipDates (mondayOf a - 7) (mondayOf a + 20) ev,
      (((calculate_event_layout es (get_four_week_range a).1).1) d).getD r none = some ev) ∧
    (∀ d (q : Nat) x,
      (((calculate_event_layout es (get_four_week_range a).1).1) d).getD q none = some x →
      eventKey x = eventKey ev → x = ev ∧ q = r) ∧
    (∀ (d : Int) (q : Nat),
      (((calculate_event_layout es (get_four_week_range a).1).1) d).getD q none = some ev →
      d ∈ clipDates (mondayOf a - 7) (mondayOf a + 20) ev) ∧
    ¬(ev.end_date < mondayOf a - 7 ∨ ev.start_date > mondayOf a + 20) := by
  have hs : windowStart (get_four_week_range a).1 = mondayOf a - 7 := window_join_headD a
  have he : windowEnd (get_four_week_range a).1 = mondayOf a + 20 := window_join_getLastD a
  rw [calculate_event_layout_eq] at hmem ⊢
  rw [hs, he] at hmem ⊢
  unfold relevantEvents at hmem ⊢
  rw [hs, he] at hmem ⊢
  obtain ⟨invA, invB, invC⟩ := packFold_inv (mondayOf a - 7) (mondayOf a + 20)
    (get_events_for_date_range es (mondayOf a - 7) (mondayOf a + 20))
  have hesnd : es.Nodup := List.Nodup.of_map _ hkeys
  have hRnd : (get_events_for_date_range es (mondayOf a - 7) (mondayOf a + 20)).Nodup :=
    hesnd.filter _
  have hRkeys : ((get_events_for_date_range es (mondayOf a - 7) (mondayOf a + 20)).map
      eventKey).Nodup :=
    List.Nodup.sublist ((List.filter_sublist es).map eventKey) hkeys
  have hasgnd : ((packFold (mondayOf a - 7) (mondayOf a + 20)
      (get_events_for_date_range es (mondayOf a - 7) (mondayOf a + 20))).2.map
        Prod.fst).Nodup := by
    rw [invC]
    exact hRnd
  have hevmem : ev ∈ get_events_for_date_range es (mondayOf a - 7) (mondayOf a + 20) := by
    rw [← invC]
    exact List.mem_map_of_mem Prod.fst hmem
  refine ⟨fun d hd => invA ev r hmem d hd, ?_, fun d q h => (invB d q ev h).2, ?_⟩
  · intro d q x hslot hk
    obtain ⟨hxasg, _⟩ := invB d q x hslot
    have hxR : x ∈ get_events_for_date_range es (mondayOf a - 7) (mondayOf a + 20) := by
      rw [← invC]
      exact List.mem_map_of_mem Prod.fst hxasg
    have hxev : x = ev := List.inj_on_of_nodup_map hRkeys hxR hevmem hk
    subst hxev
    exact ⟨rfl, pair_unique_of_nodup_fst hasgnd hxasg hmem⟩
  · have hf := List.of_mem_filter hevmem
    simp only [Bool.not_eq_true', Bool.or_eq_false_iff, decide_eq_false_iff_not] at hf
    rintro (h | h)
    · exact hf.1 h
    · exact hf.2 h

theorem synthesize_bands_four (mc : List (String × String)) (w1 w2 w3 w4 : List Int)
    (occ : Occ) :
    synthesize_bands mc [w1, w2, w3, w4] occ =
      scanWeek mc 0 w1 occ ([w1, w2, w3, w4].flatten) ++
      scanWeek mc 1 w2 occ ([w1, w2, w3, w4].flatten) ++
      scanWeek mc 2 w3 occ ([w1, w2, w3, w4].flatten) ++
      scanWeek mc 3 w4 occ ([w1, w2, w3, w4].flatten) := by
  simp only [synthesize_bands, List.enum_cons, List.enumFrom_cons, List.enumFrom_nil,
    List.map_cons, List.map_nil, List.flatten_cons, List.flatten_nil, List.append_nil,
    List.append_assoc]

/-- C7: for a packed event of a key-distinct (deduplicated) event list
with a well-formed range, the drawing loop emits exactly one band per
week in which the event is visible — spanning
`max(start_date, week[0])` to `min(end_date, week[6])` at the event's
assigned row — no band for invisible weeks, the bands' date ranges cover
exactly the event's window-clipped range (no gaps), and distinct bands
of the event never overlap. -/
theorem band_synthesis_correct (a : Int) (es : List RawEvent)
    (memColors : List (String × String)) (ev : RawEvent) (r : Nat)
    (hkeys : (es.map eventKey).Nodup)
    (hse : ev.start_date ≤ ev.end_date)
    (hmem : (ev, r) ∈ (calculate_event_layout es (get_four_week_range a).1).2) :
    ((synthesize_bands memColors (get_four_week_range a).1
        (calculate_event_layout es (get_four_week_range a).1).1).filter
        (fun b => decide (eventKey b.event = eventKey ev)) =
      (if ¬(ev.end_date < mondayOf a - 7 ∨ ev.start_date > mondayOf a - 1)
       then [mkBand memColors 0 (mondayOf a - 7) (mondayOf a - 1)
              (max ev.start_date (mondayOf a - 7)) r ev] else []) ++
      (if ¬(ev.end_date < mondayOf a ∨ ev.start_date > mondayOf a + 6)
       then [mkBand memColors 1 (mondayOf a) (mondayOf a + 6)
              (max ev.start_date (mondayOf a)) r ev] else []) ++
      (if ¬(ev.end_date < mondayOf a + 7 ∨ ev.start_date > mondayOf a + 13)
       then [mkBand memColors 2 (mondayOf a + 7) (mondayOf a + 13)
              (max ev.start_date (mondayOf a + 7)) r ev] else []) ++
      (if ¬(ev.end_date < mondayOf a + 14 ∨ ev.start_date > mondayOf a + 20)
       then [mkBand memColors 3 (mondayOf a + 14) (mondayOf a + 20)
              (max ev.start_date (mondayOf a + 14)) r ev] else [])) ∧
    (∀ d : Int,
      (((synthesize_bands memColors (get_four_week_range a).1
          (calculate_event_layout es (get_four_week_range a).1).1).filter
          (fun b => decide (eventKey b.event = eventKey ev))).any
          (fun b => decide (b.bstart ≤ d) && decide (d ≤ b.bend))) = true ↔
        max ev.start_date (mondayOf a - 7) ≤ d ∧ d ≤ min ev.end_date (mondayOf a + 20)) ∧
    (∀ b1 b2,
      b1 ∈ (synthesize_bands memColors (get_four_week_range a).1
          (calculate_event_layout es (get_four_week_range a).1).1).filter
          (fun b => decide (eventKey b.event = eventKey ev)) →
      b2 ∈ (synthesize_bands memColors (get_four_week_range a).1
          (calculate_event_layout es (get_four_week_range a).1).1).filter
          (fun b => decide (eventKey b.event = eventKey ev)) →
      b1 ≠ b2 → b1.bend < b2.bstart ∨ b2.bend < b1.bstart) := by
  obtain ⟨hA, hUq, hB, hrel⟩ := layout_slots_facts a es ev r hkeys hmem
  rw [get_four_week_range_eq a] at hA hUq hB
  have hlf : ∀ d : Int,
      d ∈ ([intRange (mondayOf a - 7) (mondayOf a - 1),
            intRange (mondayOf a) (mondayOf a + 6),
            intRange (mondayOf a + 7) (mondayOf a + 13),
            intRange (mondayOf a + 14) (mondayOf a + 20)] : List (List Int)).flatten ↔
        mondayOf a - 7 ≤ d ∧ d ≤ mondayOf a + 20 := by
    intro d
    rw [← get_four_week_range_eq a]
    exact mem_window_join
  have g1 := le_max_left ev.start_date (mondayOf a - 7)
  have g2 := le_max_right ev.start_date (mondayOf a - 7)
  have g3 := max_choice ev.start_date (mondayOf a - 7)
  have g4 := le_max_left ev.start_date (mondayOf a)
  have g5 := le_max_right ev.start_date (mondayOf a)
  have g6 := max_choice ev.start_date (mondayOf a)
  have g7 := le_max_left ev.start_date (mondayOf a + 7)
  have g8 := le_max_right ev.start_date (mondayOf a + 7)
  have g9 := max_choice ev.start_date (mondayOf a + 7)
  have g10 := le_max_left ev.start_date (mondayOf a + 14)
  have g11 := le_max_right ev.start_date (mondayOf a + 14)
  have g12 := max_choice ev.start_date (mondayOf a + 14)
  have k1 := min_le_left ev.end_date (mondayOf a - 1)
  have k2 := min_le_right ev.end_date (mondayOf a - 1)
  have k3 := min_choice ev.end_date (mondayOf a - 1)
  have k4 := min_le_left ev.end_date (mondayOf a + 6)
  have k5 := min_le_right ev.end_date (mondayOf a + 6)
  have k6 := min_choice ev.end_date (mondayOf a + 6)
  have k7 := min_le_left ev.end_date (mondayOf a + 13)
  have k8 := min_le_right ev.end_date (mondayOf a + 13)
  have k9 := min_choice ev.end_date (mondayOf a + 13)
  have k10 := min_le_left ev.end_date (mondayOf a + 20)
  have k11 := min_le_right ev.end_date (mondayOf a + 20)
  have k12 := min_choice ev.end_date (mondayOf a + 20)
  have hsynth : (synthesize_bands memColors (get_four_week_range a).1
      (calculate_event_layout es (get_four_week_range a).1).1).filter
      (fun b => decide (eventKey b.event = eventKey ev)) =
      (if ¬(ev.end_date < mondayOf a - 7 ∨ ev.start_date > mondayOf a - 1)
       then [mkBand memColors 0 (mondayOf a - 7) (mondayOf a - 1)
              (max ev.start_date (mondayOf a - 7)) r ev] else []) ++
      (if ¬(ev.end_date < mondayOf a ∨ ev.start_date > mondayOf a + 6)
       then [mkBand memColors 1 (mondayOf a) (mondayOf a + 6)
              (max ev.start_date (mondayOf a)) r ev] else []) ++
      (if ¬(ev.end_date < mondayOf a + 7 ∨ ev.start_date > mondayOf a + 13)
       then [mkBand memColors 2 (mondayOf a + 7) (mondayOf a + 13)
              (max ev.start_date (mondayOf a + 7)) r ev] else []) ++
      (if ¬(ev.end_date < mondayOf a + 14 ∨ ev.start_date > mondayOf a + 20)
       then [mkBand memColors 3 (mondayOf a + 14) (mondayOf a + 20)
              (max ev.start_date (mondayOf a + 14)) r ev] else []) := by
    rw [get_four_week_range_eq a, synthesize_bands_four]
    rw [List.filter_append, List.filter_append, List.filter_append]
    rw [scanWeek_key memColors _ (mondayOf a - 7) (mondayOf a + 20) ev r 0
        (mondayOf a - 7) (mondayOf a - 1) (by omega) _ hA hUq hB
        (fun d hd => (hlf d).2 (by rw [mem_intRange] at hd; omega)),
      scanWeek_key memColors _ (mondayOf a - 7) (mondayOf a + 20) ev r 1
        (mondayOf a) (mondayOf a + 6) (by omega) _ hA hUq hB
        (fun d hd => (hlf d).2 (by rw [mem_intRange] at hd; omega)),
      scanWeek_key memColors _ (mondayOf a - 7) (mondayOf a + 20) ev r 2
        (mondayOf a + 7) (mondayOf a + 13) (by omega) _ hA hUq hB
        (fun d hd => (hlf d).2 (by rw [mem_intRange] at hd; omega)),
      scanWeek_key memColors _ (mondayOf a - 7) (mondayOf a + 20) ev r 3
        (mondayOf a + 14) (mondayOf a + 20) (by omega) _ hA hUq hB
        (fun d hd => (hlf d).2 (by rw [mem_intRange] at hd; omega))]
    simp only [week_visibility (mondayOf a - 7) (mondayOf a + 20) (mondayOf a - 7)
        (mondayOf a - 1) ev hse hrel ⟨by omega, by omega, by omega⟩,
      week_visibility (mondayOf a - 7) (mondayOf a + 20) (mondayOf a)
        (mondayOf a + 6) ev hse hrel ⟨by omega, by omega, by omega⟩,
      week_visibility (mondayOf a - 7) (mondayOf a + 20) (mondayOf a + 7)
        (mondayOf a + 13) ev hse hrel ⟨by omega, by omega, by omega⟩,
      week_visibility (mondayOf a - 7) (mondayOf a + 20) (mondayOf a + 14)
        (mondayOf a + 20) ev hse hrel ⟨by omega, by omega, by omega⟩]
  refine ⟨hsynth, ?_, ?_⟩
  · intro d
    rw [hsynth]
    constructor
    · intro h
      obtain ⟨b, hb, hpb⟩ := List.any_eq_true.1 h
      rcases mem_four_ifs hb with ⟨hc, rfl⟩ | ⟨hc, rfl⟩ | ⟨hc, rfl⟩ | ⟨hc, rfl⟩ <;>
        (simp only [mkBand_bstart, mkBand_bend, Bool.and_eq_true, decide_eq_true_eq] at hpb;
         omega)
    · intro h
      rw [List.any_eq_true]
      by_cases h0 : d ≤ mondayOf a - 1
      · have hc : ¬(ev.end_date < mondayOf a - 7 ∨ ev.start_date > mondayOf a - 1) := by
          omega
        refine ⟨mkBand memColors 0 (mondayOf a - 7) (mondayOf a - 1)
          (max ev.start_date (mondayOf a - 7)) r ev, ?_, ?_⟩
        · exact List.mem_append.2 (Or.inl (List.mem_append.2 (Or.inl (List.mem_append.2
            (Or.inl (by rw [if_pos hc]; exact List.mem_singleton.2 rfl))))))
        · simp only [mkBand_bstart, mkBand_bend, Bool.and_eq_true, decide_eq_true_eq]
          omega
      · by_cases h1 : d ≤ mondayOf a + 6
        · have hc : ¬(ev.end_date < mondayOf a ∨ ev.start_date > mondayOf a + 6) := by
            omega
          refine ⟨mkBand memColors 1 (mondayOf a) (mondayOf a + 6)
            (max ev.start_date (mondayOf a)) r ev, ?_, ?_⟩
          · exact List.mem_append.2 (Or.inl (List.mem_append.2 (Or.inl (List.mem_append.2
              (Or.inr (by rw [if_pos hc]; exact List.mem_singleton.2 rfl))))))
          · simp only [mkBand_bstart, mkBand_bend, Bool.and_eq_true, decide_eq_true_eq]
            omega
        · by_cases h2 : d ≤ mondayOf a + 13
          · have hc : ¬(ev.end_date < mondayOf a + 7 ∨ ev.start_date > mondayOf a + 13) := by
              omega
            refine ⟨mkBand memColors 2 (mondayOf a + 7) (mondayOf a + 13)
              (max ev.start_date (mondayOf a + 7)) r ev, ?_, ?_⟩
            · exact List.mem_append.2 (Or.inl (List.mem_append.2
                (Or.inr (by rw [if_pos hc]; exact List.mem_singleton.2 rfl))))
            · simp only [mkBand_bstart, mkBand_bend, Bool.and_eq_true, decide_eq_true_eq]
              omega
          · have hc : ¬(ev.end_date < mondayOf a + 14 ∨ ev.start_date > mondayOf a + 20) := by
              omega
            refine ⟨mkBand memColors 3 (mondayOf a + 14) (mondayOf a + 20)
              (max ev.start_date (mondayOf a + 14)) r ev, ?_, ?_⟩
            · exact List.mem_append.2
                (Or.inr (by rw [if_pos hc]; exact List.mem_singleton.2 rfl))
            · simp only [mkBand_bstart, mkBand_bend, Bool.and_eq_true, decide_eq_true_eq]
              omega
  · intro b1 b2 hb1 hb2 hne
    rw [hsynth] at hb1 hb2
    rcases mem_four_ifs hb1 with ⟨hc1, rfl⟩ | ⟨hc1, rfl⟩ | ⟨hc1, rfl⟩ | ⟨hc1, rfl⟩ <;>
      rcases mem_four_ifs hb2 with ⟨hc2, rfl⟩ | ⟨hc2, rfl⟩ | ⟨hc2, rfl⟩ | ⟨hc2, rfl⟩ <;>
      first
        | exact absurd rfl hne
        | (simp only [mkBand_bstart, mkBand_bend]; omega)

/-- Witness for C7: band coverage at 2024-03-12 (ordinal 738956) for the
event 2024-03-10..12 in the window anchored at 2024-03-15. -/
theorem band_synthesis_correct_witness :
    ((synthesize_bands [] (get_four_week_range 738960).1
        (calculate_event_layout
          [⟨738955, 738957, "A", ""⟩, ⟨738956, 738958, "B", "x"⟩]
          (get_four_week_range 738960).1).1).filter
        (fun b => decide (eventKey b.event =
          eventKey ⟨738955, 738957, "A", ""⟩))).any
        (fun b => decide (b.bstart ≤ 738956) && decide ((738956 : Int) ≤ b.bend)) = true ↔
      max (738955 : Int) (mondayOf 738960 - 7) ≤ 738956 ∧
        (738956 : Int) ≤ min 738957 (mondayOf 738960 + 20) :=
  (band_synthesis_correct 738960
    [⟨738955, 738957, "A", ""⟩, ⟨738956, 738958, "B", "x"⟩] []
    ⟨738955, 738957, "A", ""⟩ 0 (by decide) (by decide) (by decide)).2.1 738956

end CalendarGen
